import Mathlib

/-!
Shallow embedding of the VepeShop backend (src/app.py): a key-value store
holding Product, Order, User, Promo and Stats records, with the repository
operations the claims are about.

Modelling conventions, each keyed to the source:
* The Redis store (decode_responses=True) keeps hash records whose field
  values are strings on the wire.  Values are modelled as tagged values
  (RVal) whose textual coding is lossless, so int(str(n)) = n is the
  identity on the rint tag; nested structures (order items, user referrals)
  are stored through an explicit executable JSON printer and parser,
  mirroring json.dumps and json.loads in the source.
* ISO-8601 timestamps produced by get_current_time are totally ordered the
  same way as the clock, so they are modelled as integers.
* Hash records are association lists (first binding wins, updates in
  place, new fields appended), matching dict and HSET semantics; the store
  is an association list from keys to records plus a separate table for
  the allocator counter keys (INCR operates on plain string keys).  The
  endswith-colon-counter skip in the list operations of the source is
  represented by enumerating only the record table.
* An empty hash does not exist in Redis, so EXISTS is modelled as the
  record being present and nonempty, and the empty-dict checks of the
  source are kept as explicit isEmpty tests.
-/

set_option maxRecDepth 8000

namespace VepeShop

/-- An order item: product reference, quantity, price at purchase
(data model section 3 of the spec; the source treats items as an opaque
JSON payload). -/
structure Item where
  productId : Int
  quantity : Int
  price : Int
  deriving DecidableEq

/-- A value held in a record field or passed in a request payload.
rstr and rint are the wire forms written by the source; rbool models the
isAdmin boolean written by save_user; rints and ritems are the structured
(in-memory) forms of referrals and items that appear in returned payloads. -/
inductive RVal where
  | rstr (s : String)
  | rint (n : Int)
  | rbool (b : Bool)
  | rints (l : List Int)
  | ritems (l : List Item)
  deriving DecidableEq

/-- A hash record: association list from field names to values (dict /
HGETALL result). -/
abbrev Rec := List (String × RVal)

/-- First-match lookup in an association list (dict access). -/
def lookupA {α : Type} : List (String × α) → String → Option α
  | [], _ => none
  | (k, v) :: l, k' => if k = k' then some v else lookupA l k'

/-- In-place update of an association list: the first binding of the key is
replaced, a missing key is appended at the end (dict item assignment /
HSET of a single field). -/
def updA {α : Type} : List (String × α) → String → α → List (String × α)
  | [], k', v' => [(k', v')]
  | (k, v) :: l, k', v' => if k = k' then (k', v') :: l else (k, v) :: updA l k' v'

/-- HSET with a mapping: every supplied field is written, other fields of
the record are untouched. -/
def setMany (r : Rec) (m : List (String × RVal)) : Rec :=
  m.foldl (fun r p => updA r p.1 p.2) r

@[simp] theorem lookupA_nil {α : Type} (k : String) : lookupA ([] : List (String × α)) k = none := rfl

theorem lookupA_updA_self {α : Type} (l : List (String × α)) (k : String) (v : α) :
    lookupA (updA l k v) k = some v := by
  induction l with
  | nil => simp [updA, lookupA]
  | cons p l ih =>
    obtain ⟨k', v'⟩ := p
    by_cases h : k' = k
    · subst h; simp [updA, lookupA]
    · simp [updA, lookupA, h, ih]

theorem lookupA_updA_ne {α : Type} (l : List (String × α)) (k k' : String) (v : α)
    (h : k ≠ k') : lookupA (updA l k v) k' = lookupA l k' := by
  induction l with
  | nil => simp [updA, lookupA, h]
  | cons p l ih =>
    obtain ⟨k0, v0⟩ := p
    by_cases h0 : k0 = k
    · subst h0; simp [updA, lookupA, h]
    · by_cases h1 : k0 = k'
      · subst h1; simp [updA, lookupA, h0]
      · simp [updA, lookupA, h0, h1, ih]

theorem map_fst_updA_of_mem {α : Type} (l : List (String × α)) (k : String) (v : α)
    (h : (lookupA l k).isSome) : (updA l k v).map Prod.fst = l.map Prod.fst := by
  induction l with
  | nil => simp [lookupA] at h
  | cons p l ih =>
    obtain ⟨k0, v0⟩ := p
    by_cases h0 : k0 = k
    · subst h0; simp [updA]
    · simp only [lookupA, h0, if_false] at h
      simp [updA, h0, ih h]

theorem map_fst_updA_of_not_mem {α : Type} (l : List (String × α)) (k : String) (v : α)
    (h : lookupA l k = none) : (updA l k v).map Prod.fst = l.map Prod.fst ++ [k] := by
  induction l with
  | nil => simp [updA]
  | cons p l ih =>
    obtain ⟨k0, v0⟩ := p
    by_cases h0 : k0 = k
    · subst h0; simp [lookupA] at h
    · simp only [lookupA, h0, if_false] at h
      simp [updA, h0, ih h]

/-- Every key of the association list resolves to its own (first) binding;
with nodup keys, mapping lookup over the key list recovers the values
(used for the KEYS then HGETALL enumeration pattern). -/
theorem filterMap_lookupA_self {α : Type} (l : List (String × α))
    (h : (l.map Prod.fst).Nodup) :
    (l.map Prod.fst).filterMap (lookupA l) = l.map Prod.snd := by
  induction l with
  | nil => rfl
  | cons p l ih =>
    obtain ⟨k, v⟩ := p
    simp only [List.map_cons, List.nodup_cons] at h
    have hk : ∀ k' ∈ l.map Prod.fst, k ≠ k' := by
      intro k' hk' he; exact h.1 (he ▸ hk')
    have congr1 : (l.map Prod.fst).filterMap (lookupA ((k, v) :: l)) =
        (l.map Prod.fst).filterMap (lookupA l) := by
      apply List.filterMap_congr
      intro k' hk'
      simp [lookupA, hk k' hk']
    have hself : lookupA ((k, v) :: l) k = some v := by simp [lookupA]
    simp only [List.map_cons, List.filterMap_cons, hself]
    rw [congr1, ih h.2]

/-! ### Decimal numerals

Executable decimal printing and parsing, with a proved round trip; this is
the textual form used by str(int) for record keys and by json.dumps /
json.loads for numbers inside serialized payloads. -/

/-- One decimal digit as a character. -/
def digitChar : Nat → Char
  | 0 => '0' | 1 => '1' | 2 => '2' | 3 => '3' | 4 => '4'
  | 5 => '5' | 6 => '6' | 7 => '7' | 8 => '8' | _ => '9'

/-- Numeric value of a digit character. -/
def charDigit (c : Char) : Nat := c.toNat - 48

/-- Big-endian decimal digits of a positive number, with a structural fuel
argument so that the definition evaluates inside the kernel. -/
def toDigitsAux : Nat → Nat → List Char
  | 0, _ => []
  | fuel + 1, n => if n = 0 then [] else toDigitsAux fuel (n / 10) ++ [digitChar (n % 10)]

/-- Decimal digit string of a natural number (str of a nonnegative int). -/
def digitChars (n : Nat) : List Char :=
  if n = 0 then ['0'] else toDigitsAux (n + 1) n

/-- Decimal character string of an integer (str of an int). -/
def intChars (n : Int) : List Char :=
  if n < 0 then '-' :: digitChars n.natAbs else digitChars n.toNat

/-- str of an int, as a String. -/
def intStr (n : Int) : String := ⟨intChars n⟩

/-- str of a natural number, as a String. -/
def natStr (n : Nat) : String := ⟨digitChars n⟩

/-- Value of a big-endian digit character list. -/
def natFromDigits (l : List Char) : Nat :=
  l.foldl (fun a c => 10 * a + charDigit c) 0

theorem charDigit_digitChar {d : Nat} (h : d < 10) : charDigit (digitChar d) = d := by
  interval_cases d <;> rfl

theorem isDigit_digitChar {d : Nat} (h : d < 10) : (digitChar d).isDigit = true := by
  interval_cases d <;> rfl

theorem natFromDigits_append (l : List Char) (c : Char) :
    natFromDigits (l ++ [c]) = 10 * natFromDigits l + charDigit c := by
  simp only [natFromDigits, List.foldl_append, List.foldl_cons, List.foldl_nil]

theorem mem_toDigitsAux_isDigit :
    ∀ (fuel n : Nat), ∀ c ∈ toDigitsAux fuel n, c.isDigit = true := by
  intro fuel
  induction fuel with
  | zero => intro n c hc; simp [toDigitsAux] at hc
  | succ fuel ih =>
    intro n c hc
    by_cases h : n = 0
    · simp [toDigitsAux, h] at hc
    · simp only [toDigitsAux, h, if_false, List.mem_append, List.mem_singleton] at hc
      rcases hc with hc | hc
      · exact ih _ c hc
      · subst hc; exact isDigit_digitChar (Nat.mod_lt _ (by norm_num))

theorem natFromDigits_toDigitsAux :
    ∀ (fuel n : Nat), n ≤ fuel → natFromDigits (toDigitsAux fuel n) = n := by
  intro fuel
  induction fuel with
  | zero => intro n h; interval_cases n; rfl
  | succ fuel ih =>
    intro n h
    by_cases h0 : n = 0
    · subst h0; simp [toDigitsAux, natFromDigits]
    · simp only [toDigitsAux, h0, if_false]
      rw [natFromDigits_append]
      have hd : n / 10 ≤ fuel := by
        have : n / 10 < n := Nat.div_lt_self (Nat.pos_of_ne_zero h0) (by norm_num)
        omega
      rw [ih _ hd, charDigit_digitChar (Nat.mod_lt _ (by norm_num))]
      omega

theorem natFromDigits_digitChars (n : Nat) : natFromDigits (digitChars n) = n := by
  by_cases h : n = 0
  · subst h; rfl
  · simp only [digitChars, h, if_false]
    exact natFromDigits_toDigitsAux (n + 1) n (by omega)

theorem digitChars_ne_nil (n : Nat) : digitChars n ≠ [] := by
  by_cases h : n = 0
  · subst h; simp [digitChars]
  · simp only [digitChars, h, if_false]
    match hf : toDigitsAux (n + 1) n with
    | [] => simp [toDigitsAux, h] at hf
    | c :: l => simp

theorem mem_digitChars_isDigit (n : Nat) : ∀ c ∈ digitChars n, c.isDigit = true := by
  by_cases h : n = 0
  · subst h; intro c hc; simp [digitChars] at hc; subst hc; rfl
  · simp only [digitChars, h, if_false]
    exact mem_toDigitsAux_isDigit _ _

/-- Consume an expected literal character sequence from the input. -/
def dropLit : List Char → List Char → Option (List Char)
  | [], s => some s
  | _ :: _, [] => none
  | c :: p, d :: s => if d = c then dropLit p s else none

theorem dropLit_append (p s : List Char) : dropLit p (p ++ s) = some s := by
  induction p with
  | nil => rfl
  | cons c p ih => simp [dropLit, ih]

/-- Maximal-munch parse of a decimal natural number. -/
def parseNat (s : List Char) : Option (Nat × List Char) :=
  let ds := s.takeWhile Char.isDigit
  if ds.isEmpty then none else some (natFromDigits ds, s.dropWhile Char.isDigit)

/-- Parse of a decimal integer with optional leading minus sign. -/
def parseInt (s : List Char) : Option (Int × List Char) :=
  if s.head? = some '-' then
    (parseNat s.tail).map (fun p => (-(p.1 : Int), p.2))
  else
    (parseNat s).map (fun p => ((p.1 : Int), p.2))

/-- The input after a printed number must not begin with a digit, so that
maximal munch stops exactly at the printed digits. -/
def noDigitHead (s : List Char) : Prop :=
  ∀ c, s.head? = some c → c.isDigit = false

theorem takeWhile_all_append (p : Char → Bool) (l rest : List Char)
    (hl : ∀ c ∈ l, p c = true) (hr : ∀ c, rest.head? = some c → p c = false) :
    (l ++ rest).takeWhile p = l ∧ (l ++ rest).dropWhile p = rest := by
  induction l with
  | nil =>
    simp only [List.nil_append]
    cases rest with
    | nil => simp
    | cons c r =>
      have : p c = false := hr c rfl
      simp [List.takeWhile, List.dropWhile, this]
  | cons c l ih =>
    have hc : p c = true := hl c (List.mem_cons_self c l)
    have ihl : ∀ c ∈ l, p c = true := fun d hd => hl d (List.mem_cons_of_mem c hd)
    obtain ⟨h1, h2⟩ := ih ihl
    simp [List.takeWhile, List.dropWhile, hc, h1, h2]

theorem parseNat_digitChars (n : Nat) (rest : List Char) (h : noDigitHead rest) :
    parseNat (digitChars n ++ rest) = some (n, rest) := by
  obtain ⟨h1, h2⟩ := takeWhile_all_append Char.isDigit (digitChars n) rest
    (mem_digitChars_isDigit n) h
  simp only [parseNat, h1, h2, List.isEmpty_iff]
  rw [if_neg (digitChars_ne_nil n)]
  rw [natFromDigits_digitChars]

theorem head_digitChars_isDigit (n : Nat) :
    ∀ c, (digitChars n).head? = some c → c.isDigit = true := by
  intro c hc
  have : c ∈ digitChars n := by
    cases hd : digitChars n with
    | nil => simp [hd] at hc
    | cons d l => simp [hd] at hc; subst hc; simp [hd]
  exact mem_digitChars_isDigit n c this

theorem parseInt_intChars (n : Int) (rest : List Char) (h : noDigitHead rest) :
    parseInt (intChars n ++ rest) = some (n, rest) := by
  by_cases hn : n < 0
  · simp only [intChars, if_pos hn, List.cons_append]
    have hhead : (('-' :: (digitChars n.natAbs ++ rest)).head? = some '-') := rfl
    simp only [parseInt, hhead, if_pos rfl, List.tail_cons]
    rw [parseNat_digitChars n.natAbs rest h]
    simp only [Option.map_some']
    have habs : -((n.natAbs : Int)) = n := by omega
    rw [habs]
    simp
  · simp only [intChars, if_neg hn]
    have hne : (digitChars n.toNat ++ rest).head? ≠ some '-' := by
      intro hc
      cases hd : digitChars n.toNat with
      | nil => exact digitChars_ne_nil n.toNat hd
      | cons d l =>
        rw [hd] at hc
        simp only [List.cons_append, List.head?_cons, Option.some_inj] at hc
        have : d.isDigit = true := head_digitChars_isDigit n.toNat d (by simp [hd])
        rw [hc] at this
        simp [Char.isDigit] at this
    simp only [parseInt, if_neg hne]
    rw [parseNat_digitChars n.toNat rest h]
    simp only [Option.map_some']
    have htn : ((n.toNat : Int)) = n := by omega
    rw [htn]

theorem intChars_injective : Function.Injective intChars := by
  intro a b hab
  have ha := parseInt_intChars a [] (by intro c hc; simp at hc)
  have hb := parseInt_intChars b [] (by intro c hc; simp at hc)
  rw [List.append_nil] at ha hb
  rw [hab, hb] at ha
  simpa using ha.symm

theorem intStr_injective : Function.Injective intStr := by
  intro a b hab
  exact intChars_injective (congrArg String.data hab)

/-! ### JSON lists

json.dumps writes a Python list as an opening bracket, the printed
elements joined by comma-space, and a closing bracket; json.loads parses
that form back.  The parser below is the executable inverse of the printer
on the canonical serialized form, which is the only form the program ever
reads back (it only loads strings it itself dumped). -/

/-- Comma-space separated continuation of a printed list (all elements
after the first). -/
def sepChars {α : Type} (pr : α → List Char) : List α → List Char
  | [] => []
  | a :: l => ',' :: ' ' :: (pr a ++ sepChars pr l)

/-- json.dumps of a list, given a printer for the elements. -/
def printList {α : Type} (pr : α → List Char) (l : List α) : List Char :=
  match l with
  | [] => ['[', ']']
  | a :: l => '[' :: (pr a ++ sepChars pr l ++ [']'])

/-- Parser for the comma-space separated continuation, with structural
fuel (each step consumes at least the separator, so the input length is
enough fuel). -/
def parseSepTail {α : Type} (pe : List Char → Option (α × List Char)) :
    Nat → List Char → Option (List α × List Char)
  | 0, _ => none
  | fuel + 1, s =>
    if s.head? = some ']' then some ([], s.tail)
    else
      match dropLit [',', ' '] s with
      | none => none
      | some s1 =>
        match pe s1 with
        | none => none
        | some (a, s2) =>
          match parseSepTail pe fuel s2 with
          | none => none
          | some (l, s3) => some (a :: l, s3)

/-- json.loads of a list, given a parser for the elements. -/
def parseList {α : Type} (pe : List Char → Option (α × List Char))
    (s : List Char) : Option (List α × List Char) :=
  match dropLit ['['] s with
  | none => none
  | some s1 =>
    if s1.head? = some ']' then some ([], s1.tail)
    else
      match pe s1 with
      | none => none
      | some (a, s2) =>
        match parseSepTail pe s2.length s2 with
        | none => none
        | some (l, s3) => some (a :: l, s3)

theorem head_sepChars_append {α : Type} (pr : α → List Char) (l : List α)
    (rest : List Char) :
    (sepChars pr l ++ (']' :: rest)).head? = some ',' ∨
      (sepChars pr l ++ (']' :: rest)).head? = some ']' := by
  cases l with
  | nil => right; rfl
  | cons a l => left; rfl

theorem sepChars_length_ge {α : Type} (pr : α → List Char) (l : List α) :
    l.length ≤ (sepChars pr l).length := by
  induction l with
  | nil => simp [sepChars]
  | cons a l ih => simp [sepChars]; omega

theorem parseSepTail_print {α : Type} (pr : α → List Char)
    (pe : List Char → Option (α × List Char))
    (hpe : ∀ (a : α) (rest : List Char),
      (rest.head? = some ',' ∨ rest.head? = some ']') → pe (pr a ++ rest) = some (a, rest)) :
    ∀ (l : List α) (fuel : Nat) (rest : List Char), l.length < fuel →
      parseSepTail pe fuel (sepChars pr l ++ (']' :: rest)) = some (l, rest) := by
  intro l
  induction l with
  | nil =>
    intro fuel rest hf
    match fuel, hf with
    | fuel + 1, _ => simp [sepChars, parseSepTail]
  | cons a l ih =>
    intro fuel rest hf
    match fuel, hf with
    | fuel + 1, hf =>
      have hne : ((sepChars pr (a :: l) ++ (']' :: rest)).head? ≠ some ']') := by
        simp [sepChars]
      simp only [parseSepTail, if_neg hne]
      have hdrop : sepChars pr (a :: l) ++ (']' :: rest) =
          [',', ' '] ++ (pr a ++ (sepChars pr l ++ (']' :: rest))) := by
        simp [sepChars]
      rw [hdrop, dropLit_append]
      dsimp only
      rw [hpe a _ (head_sepChars_append pr l rest)]
      dsimp only
      rw [ih fuel rest (by simpa using hf)]

theorem parseList_print {α : Type} (pr : α → List Char)
    (pe : List Char → Option (α × List Char))
    (hpe : ∀ (a : α) (rest : List Char),
      (rest.head? = some ',' ∨ rest.head? = some ']') → pe (pr a ++ rest) = some (a, rest))
    (hhead : ∀ (a : α), ∃ c l, pr a = c :: l ∧ c ≠ ']')
    (l : List α) :
    parseList pe (printList pr l) = some (l, []) := by
  cases l with
  | nil => rfl
  | cons a l =>
    have hdrop : printList pr (a :: l) = ['['] ++ (pr a ++ sepChars pr l ++ [']']) := by
      simp [printList]
    simp only [parseList]
    rw [hdrop, dropLit_append]
    dsimp only
    obtain ⟨c, cl, hc, hcne⟩ := hhead a
    have hne : ((pr a ++ sepChars pr l ++ [']']).head? ≠ some ']') := by
      rw [hc]
      simpa using hcne
    rw [if_neg hne]
    have hassoc : pr a ++ sepChars pr l ++ [']'] = pr a ++ (sepChars pr l ++ (']' :: [])) := by
      simp
    rw [hassoc, hpe a _ (head_sepChars_append pr l [])]
    dsimp only
    rw [parseSepTail_print pr pe hpe l _ []
      (Nat.lt_of_le_of_lt (sepChars_length_ge pr l) (by simp))]

/-- json.dumps of one item dict, in the canonical key order of the typed
payload, with the default comma-space and colon-space separators of the
Python json module. -/
def itemChars (it : Item) : List Char :=
  "\x7b\"productId\": ".data ++ intChars it.productId ++
    ", \"quantity\": ".data ++ intChars it.quantity ++
    ", \"price\": ".data ++ intChars it.price ++ ['\x7d']

/-- json.loads of one item dict. -/
def parseItem (s : List Char) : Option (Item × List Char) :=
  match dropLit "\x7b\"productId\": ".data s with
  | none => none
  | some s1 =>
    match parseInt s1 with
    | none => none
    | some (a, s2) =>
      match dropLit ", \"quantity\": ".data s2 with
      | none => none
      | some s3 =>
        match parseInt s3 with
        | none => none
        | some (b, s4) =>
          match dropLit ", \"price\": ".data s4 with
          | none => none
          | some s5 =>
            match parseInt s5 with
            | none => none
            | some (c, s6) =>
              match dropLit ['\x7d'] s6 with
              | none => none
              | some s7 => some (⟨a, b, c⟩, s7)

theorem parseItem_itemChars (it : Item) (rest : List Char)
    (h : rest.head? = some ',' ∨ rest.head? = some ']') :
    parseItem (itemChars it ++ rest) = some (it, rest) := by
  have hnorm : itemChars it ++ rest =
      "\x7b\"productId\": ".data ++ (intChars it.productId ++
        (", \"quantity\": ".data ++ (intChars it.quantity ++
          (", \"price\": ".data ++ (intChars it.price ++ ('\x7d' :: rest)))))) := by
    simp [itemChars]
  have hq : noDigitHead (", \"quantity\": ".data ++
      (intChars it.quantity ++ (", \"price\": ".data ++ (intChars it.price ++ ('\x7d' :: rest))))) := by
    intro c hc
    have : c = ',' := by
      have he : ((", \"quantity\": ".data ++
        (intChars it.quantity ++ (", \"price\": ".data ++
          (intChars it.price ++ ('\x7d' :: rest))))).head? = some ',') := rfl
      rw [he] at hc; exact (Option.some_inj.mp hc).symm
    subst this; decide
  have hp : noDigitHead (", \"price\": ".data ++ (intChars it.price ++ ('\x7d' :: rest))) := by
    intro c hc
    have : c = ',' := by
      have he : ((", \"price\": ".data ++
        (intChars it.price ++ ('\x7d' :: rest))).head? = some ',') := rfl
      rw [he] at hc; exact (Option.some_inj.mp hc).symm
    subst this; decide
  have hb : noDigitHead ('\x7d' :: rest) := by
    intro c hc
    have : c = '\x7d' := by
      simp only [List.head?_cons, Option.some_inj] at hc; exact hc.symm
    subst this; decide
  simp only [parseItem]
  rw [hnorm, dropLit_append]
  dsimp only
  rw [parseInt_intChars _ _ hq]
  dsimp only
  rw [dropLit_append]
  dsimp only
  rw [parseInt_intChars _ _ hp]
  dsimp only
  rw [dropLit_append]
  dsimp only
  rw [parseInt_intChars _ _ hb]
  dsimp only
  have hlast : ('\x7d' :: rest) = ['\x7d'] ++ rest := rfl
  rw [hlast, dropLit_append]

theorem head_itemChars (it : Item) : ∃ c l, itemChars it = c :: l ∧ c ≠ ']' := by
  refine ⟨'\x7b', _, rfl, by decide⟩

/-- json.dumps of an items list, as stored in the items hash field by
save_order. -/
def dumpsItems (l : List Item) : String := ⟨printList itemChars l⟩

/-- json.loads of an items list, as applied by get_all_orders when reading
the items field back. -/
def loadsItems (s : String) : Option (List Item) :=
  match parseList parseItem s.data with
  | some (l, []) => some l
  | _ => none

theorem loadsItems_dumpsItems (l : List Item) : loadsItems (dumpsItems l) = some l := by
  have h := parseList_print itemChars parseItem
    (fun a rest hr => parseItem_itemChars a rest hr) head_itemChars l
  simp only [loadsItems, dumpsItems]
  rw [h]

theorem parseInt_intChars_sep (n : Int) (rest : List Char)
    (h : rest.head? = some ',' ∨ rest.head? = some ']') :
    parseInt (intChars n ++ rest) = some (n, rest) := by
  apply parseInt_intChars
  intro c hc
  rcases h with h | h <;> rw [h] at hc <;>
    (exact (Option.some_inj.mp hc) ▸ (by decide))

theorem head_intChars (n : Int) : ∃ c l, intChars n = c :: l ∧ c ≠ ']' := by
  by_cases hn : n < 0
  · exact ⟨'-', digitChars n.natAbs, by simp [intChars, hn], by decide⟩
  · simp only [intChars, if_neg hn]
    cases hd : digitChars n.toNat with
    | nil => exact absurd hd (digitChars_ne_nil n.toNat)
    | cons c l =>
      refine ⟨c, l, rfl, ?_⟩
      intro he
      have : c.isDigit = true := head_digitChars_isDigit n.toNat c (by simp [hd])
      rw [he] at this
      exact absurd this (by decide)

/-- json.dumps of a list of integers, as stored in the referrals hash
field by save_user. -/
def dumpsInts (l : List Int) : String := ⟨printList intChars l⟩

/-- json.loads of a list of integers, as applied by get_user when reading
the referrals field back. -/
def loadsInts (s : String) : Option (List Int) :=
  match parseList parseInt s.data with
  | some (l, []) => some l
  | _ => none

theorem loadsInts_dumpsInts (l : List Int) : loadsInts (dumpsInts l) = some l := by
  have h := parseList_print intChars parseInt parseInt_intChars_sep head_intChars l
  simp only [loadsInts, dumpsInts]
  rw [h]

/-! ### The key-value store

Records (Redis hashes) and allocator counters (plain INCR keys) in one
store state.  KEYS with a prefix pattern enumerates record keys; the
counter keys of the allocator live in the separate counter table, which
realizes the endswith-colon-counter skip performed by the enumeration
loops in the source. -/

structure Store where
  recs : List (String × Rec)
  counters : List (String × Nat)
  deriving DecidableEq

/-- HGETALL: the record at a key, if present. -/
def Store.getRec (st : Store) (k : String) : Option Rec :=
  lookupA st.recs k

/-- HSET with a mapping: supplied fields written over the existing record
(or over a fresh empty record). -/
def Store.hset (st : Store) (k : String) (m : List (String × RVal)) : Store :=
  { st with recs := updA st.recs k (setMany ((lookupA st.recs k).getD []) m) }

/-- HSET of a single field. -/
def Store.hset1 (st : Store) (k f : String) (v : RVal) : Store :=
  st.hset k [(f, v)]

/-- EXISTS: a hash key exists exactly when its record is nonempty. -/
def Store.existsKey (st : Store) (k : String) : Bool :=
  match lookupA st.recs k with
  | some r => !r.isEmpty
  | none => false

/-- INCR on a counter key: missing keys count from zero; returns the new
value. -/
def Store.incr (st : Store) (k : String) : Nat × Store :=
  let n := (lookupA st.counters k).getD 0 + 1
  (n, { st with counters := updA st.counters k n })

/-- The int() coercion of the source applied to a stored value: integers
round-trip through their decimal string; a nonnumeric string, a boolean or
a structured value raises, modelled as none. -/
def RVal.asInt : RVal → Option Int
  | RVal.rint n => some n
  | RVal.rstr s => (parseInt s.data).bind (fun p => if p.2.isEmpty then some p.1 else none)
  | _ => none

/-- HINCRBY on a hash field: missing fields count from zero. -/
def Store.hincrby (st : Store) (k f : String) (d : Int) : Store :=
  let r := (lookupA st.recs k).getD []
  let old := ((lookupA r f).bind RVal.asInt).getD 0
  { st with recs := updA st.recs k (updA r f (RVal.rint (old + d))) }

/-- KEYS with pattern prefix-star, restricted to record keys (see the
module comment about counter keys). -/
def Store.keysWithPfx (st : Store) (p : String) : List String :=
  (st.recs.map Prod.fst).filter (fun k => p.data.isPrefixOf k.data)

/-- Key namespaces of the source (module level constants in app.py). -/
def PRODUCTS_KEY : String := "vape_shop:products"
def ORDERS_KEY : String := "vape_shop:orders"
def USERS_KEY : String := "vape_shop:users"
def PROMOS_KEY : String := "vape_shop:promos"
def STATS_KEY : String := "vape_shop:stats"

/-- The static admin allow-list ADMIN_IDS (one Telegram id). -/
def isAdminId (uid : Nat) : Bool := uid == 1286638668

/-- get_next_id: atomic INCR against the per-type counter key. -/
def get_next_id (st : Store) (key_pfx : String) : Nat × Store :=
  st.incr (key_pfx ++ ":counter")

def productKey (i : Int) : String := PRODUCTS_KEY ++ ":" ++ intStr i
def orderKey (i : Int) : String := ORDERS_KEY ++ ":" ++ intStr i
def userKey (u : Nat) : String := USERS_KEY ++ ":" ++ natStr u
def promoKey (c : String) : String := PROMOS_KEY ++ ":" ++ c

/-! ### Product repository (app.py lines 43-92, 284-321)

Request payloads are typed: the caller-facing layer validates presence of
name, category, price and stock, so the typed input has them; optional
dict keys of the payload are Option fields (a Python dict simply lacks the
key). -/

structure ProdIn where
  id : Option Int
  name : String
  category : String
  price : Int
  stock : Int
  description : Option String
  emoji : Option String
  created_at : Option Int
  deriving DecidableEq

/-- The mapping written by save_product: the full payload dict after the
id assignment, the created_at setdefault and the updated_at assignment. -/
def prodFields (i : Int) (d : ProdIn) (t : Int) : List (String × RVal) :=
  [("id", RVal.rint i), ("name", RVal.rstr d.name), ("category", RVal.rstr d.category),
    ("price", RVal.rint d.price), ("stock", RVal.rint d.stock)] ++
  (match d.description with | some s => [("description", RVal.rstr s)] | none => []) ++
  (match d.emoji with | some s => [("emoji", RVal.rstr s)] | none => []) ++
  [("created_at", RVal.rint (d.created_at.getD t)),
    ("updated_at", RVal.rint t)]

/-- save_product: allocate an id when the payload lacks one, default
created_at to now only when the payload lacks it, always stamp updated_at,
then HSET the whole mapping.  Returns the id of the saved record (the
source returns the whole mutated payload dict). -/
def save_product (st : Store) (d : ProdIn) (t : Int) : Int × Store :=
  let (i, st1) : Int × Store :=
    match d.id with
    | some i => (i, st)
    | none => let (n, st') := get_next_id st PRODUCTS_KEY; ((n : Int), st')
  (i, st1.hset (productKey i) (prodFields i d t))

/-- PUT handler api_update_product: forces the id from the route into the
payload, then funnels through save_product. -/
def api_update_product (st : Store) (pid : Int) (d : ProdIn) (t : Int) : Int × Store :=
  save_product st { d with id := some pid } t

/-- A product as returned by get_all_products: the whole stored dict with
id, price and stock coerced to integers (other fields pass through
untouched; the ones the claims mention are carried here). -/
structure Product where
  id : Int
  price : Int
  stock : Int
  name : Option RVal
  deriving DecidableEq

/-- The per-record coercion step of the get_all_products loop: int() on
id, price and stock; a missing or nonnumeric field raises, which the
enclosing try block turns into an empty overall result. -/
def decodeProduct (r : Rec) : Option Product := do
  let i ← (lookupA r "id").bind RVal.asInt
  let p ← (lookupA r "price").bind RVal.asInt
  let s ← (lookupA r "stock").bind RVal.asInt
  pure ⟨i, p, s, lookupA r "name"⟩

/-- The loop body of the enumeration pattern: each record decoded in key
order, any failure aborting the whole enumeration (the except branch of
the source returns an empty list). -/
def decodeAll {α : Type} (f : Rec → Option α) : List Rec → Option (List α)
  | [] => some []
  | r :: rs =>
    match f r, decodeAll f rs with
    | some a, some l => some (a :: l)
    | _, _ => none

/-- The nonempty records under a namespace, in store order (KEYS plus
HGETALL plus the if-data check of the source). -/
def recsUnder (st : Store) (pfx : String) : List Rec :=
  ((st.keysWithPfx pfx).filterMap st.getRec).filter (fun r => !r.isEmpty)

/-- get_all_products: enumerate, coerce, sort ascending by id.  Python
sorted is a stable sort, modelled by insertionSort. -/
def get_all_products (st : Store) : List Product :=
  match decodeAll decodeProduct (recsUnder st (PRODUCTS_KEY ++ ":")) with
  | some ps => ps.insertionSort (fun a b => a.id ≤ b.id)
  | none => []

/-! ### Order repository (app.py lines 95-156, 344-395) -/

structure OrderIn where
  id : Option Int
  userId : Int
  items : List Item
  total : Int
  status : Option String
  created_at : Option Int
  deriving DecidableEq

/-- An order as returned by get_all_orders: id, userId, total coerced to
int, items parsed back from the stored JSON text; status is carried as
stored (the enumeration never touches it, it is read later by the stats
recomputation, and orders written by save_order always have it). -/
structure Order where
  id : Int
  userId : Int
  total : Int
  items : List Item
  status : Option RVal
  deriving DecidableEq

def decodeOrder (r : Rec) : Option Order := do
  let i ← (lookupA r "id").bind RVal.asInt
  let u ← (lookupA r "userId").bind RVal.asInt
  let tt ← (lookupA r "total").bind RVal.asInt
  let its ← match lookupA r "items" with
    | some (RVal.rstr s) => loadsItems s
    | _ => none
  pure ⟨i, u, tt, its, lookupA r "status"⟩

/-- get_all_orders: enumerate, coerce, parse items, sort descending by id
(sorted with reverse=True). -/
def get_all_orders (st : Store) : List Order :=
  match decodeAll decodeOrder (recsUnder st (ORDERS_KEY ++ ":")) with
  | some os => os.insertionSort (fun a b => b.id ≤ a.id)
  | none => []

/-- get_orders_by_user: the parent list filtered by exact userId match. -/
def get_orders_by_user (st : Store) (u : Int) : List Order :=
  (get_all_orders st).filter (fun o => o.userId == u)

/-- Revenue summed over completed orders (the generator inside
update_stats). -/
def completedSum (os : List Order) : Int :=
  ((os.filter (fun o => o.status == some (RVal.rstr "completed"))).map Order.total).sum

/-- update_stats: rebuild all four aggregates from full re-enumeration and
HSET them over the singleton stats record.  If any enumerated order lacks
a status field the revenue generator raises and the except branch leaves
the store unwritten. -/
def update_stats (st : Store) (t : Int) : Store :=
  let os := get_all_orders st
  if os.all (fun o => o.status.isSome) then
    st.hset STATS_KEY
      [("total_orders", RVal.rint (os.length : Int)),
       ("total_products", RVal.rint ((get_all_products st).length : Int)),
       ("total_users", RVal.rint ((st.keysWithPfx (USERS_KEY ++ ":")).length : Int)),
       ("total_revenue", RVal.rint (completedSum (get_all_orders st))),
       ("updated_at", RVal.rint t)]
  else st

/-- The mapping written by save_order: payload after id assignment,
created_at and status setdefault, and the items replaced by their JSON
text. -/
def orderFields (i : Int) (d : OrderIn) (t : Int) : List (String × RVal) :=
  [("id", RVal.rint i), ("userId", RVal.rint d.userId), ("total", RVal.rint d.total),
    ("items", RVal.rstr (dumpsItems d.items)),
    ("created_at", RVal.rint (d.created_at.getD t)),
    ("status", RVal.rstr (d.status.getD "pending"))]

/-- The payload dict as handed back by save_order, with the structured
items put back in place of the serialized text. -/
structure OrderOut where
  id : Int
  userId : Int
  total : Int
  items : List Item
  status : String
  created_at : Int
  deriving DecidableEq

/-- save_order: allocate id if absent, default created_at and status,
serialize items for storage, HSET, restore structured items on the
returned payload, then trigger the stats recomputation. -/
def save_order (st : Store) (d : OrderIn) (t : Int) : OrderOut × Store :=
  let (i, st1) : Int × Store :=
    match d.id with
    | some i => (i, st)
    | none => let (n, st') := get_next_id st ORDERS_KEY; ((n : Int), st')
  let st2 := st1.hset (orderKey i) (orderFields i d t)
  let st3 := update_stats st2 t
  (⟨i, d.userId, d.total, d.items, d.status.getD "pending", d.created_at.getD t⟩, st3)

/-- PUT handler api_update_order_status: existence-checked in-place field
update of status and updated_at, then stats recomputation; False when the
order key does not exist. -/
def api_update_order_status (st : Store) (i : Int) (s : String) (t : Int) : Bool × Store :=
  if st.existsKey (orderKey i) then
    let st1 := st.hset1 (orderKey i) "status" (RVal.rstr s)
    let st2 := st1.hset1 (orderKey i) "updated_at" (RVal.rint t)
    (true, update_stats st2 t)
  else (false, st)

/-! ### User repository (app.py lines 159-194, 397-434) -/

/-- int() of the bonus field with dict-get default 0. -/
def userBonusVal (r : Rec) : Option Int :=
  match lookupA r "bonus" with
  | none => some 0
  | some v => v.asInt

/-- json.loads of the referrals field with dict-get default empty list. -/
def userReferralsVal (r : Rec) : Option (List Int) :=
  match lookupA r "referrals" with
  | none => some []
  | some (RVal.rstr s) => loadsInts s
  | some _ => none

/-- The read-side coercion of get_user: int() on id, int() on bonus with
default 0, json.loads on referrals with default empty list, and isAdmin
overwritten with the allow-list membership of the requested id.  The
result is the stored dict with those four entries replaced.  A missing
record (empty HGETALL dict) and a coercion failure (caught exception,
None) are both falsy to the caller and collapse to none in get_user. -/
def decodeUser (uid : Nat) (r : Rec) : Option Rec := do
  let i ← (lookupA r "id").bind RVal.asInt
  let b ← userBonusVal r
  let rl ← userReferralsVal r
  pure (updA (updA (updA (updA r "id" (RVal.rint i)) "bonus" (RVal.rint b))
    "referrals" (RVal.rints rl)) "isAdmin" (RVal.rbool (isAdminId uid)))

def get_user (st : Store) (uid : Nat) : Option Rec :=
  (st.getRec (userKey uid)).bind (decodeUser uid)

/-- The typed save_user payload as built by the read-triggers-create path
(api_get_user) and the PUT handler. -/
structure UserIn where
  id : Nat
  username : String
  bonus : Int
  referrals : List Int
  referralCode : String
  isAdmin : Bool
  created_at : Option Int
  deriving DecidableEq

/-- The mapping written by save_user: the payload dict with referrals
serialized, created_at defaulted, updated_at stamped. -/
def userFields (u : UserIn) (t : Int) : List (String × RVal) :=
  [("id", RVal.rint (u.id : Int)), ("username", RVal.rstr u.username),
    ("bonus", RVal.rint u.bonus), ("referrals", RVal.rstr (dumpsInts u.referrals)),
    ("referralCode", RVal.rstr u.referralCode), ("isAdmin", RVal.rbool u.isAdmin),
    ("created_at", RVal.rint (u.created_at.getD t)), ("updated_at", RVal.rint t)]

/-- save_user: HSET the mapping, hand back the dict with the structured
referrals restored. -/
def save_user (st : Store) (u : UserIn) (t : Int) : Rec × Store :=
  let fs := userFields u t
  (updA fs "referrals" (RVal.rints u.referrals), st.hset (userKey u.id) fs)

/-- Python 06d zero-padded formatting of the referral code number. -/
def pad6 (n : Nat) : String :=
  ⟨List.replicate (6 - (digitChars n).length) '0' ++ digitChars n⟩

def refCode (uid : Nat) : String := "REF" ++ pad6 uid

/-- GET handler api_get_user: read-triggers-create.  A found record is
returned coerced; an absent (or unreadable) one is synthesized with zero
bonus, no referrals, a deterministic referral code and the allow-list
admin flag, persisted via save_user, and returned. -/
def api_get_user (st : Store) (uid : Nat) (t : Int) : Rec × Store :=
  match get_user st uid with
  | some u => (u, st)
  | none =>
    save_user st
      ⟨uid, "user_" ++ natStr uid, 0, [], refCode uid, isAdminId uid, none⟩ t

/-! ### Promo repository (app.py lines 196-232, 445-502) -/

structure PromoIn where
  code : String
  discount : Int
  uses : Int
  used : Option Int
  created_at : Option Int
  deriving DecidableEq

/-- The mapping written by save_promo: payload with used defaulted to 0,
created_at defaulted, updated_at stamped. -/
def promoFields (d : PromoIn) (t : Int) : List (String × RVal) :=
  [("code", RVal.rstr d.code), ("discount", RVal.rint d.discount),
    ("uses", RVal.rint d.uses), ("used", RVal.rint (d.used.getD 0)),
    ("created_at", RVal.rint (d.created_at.getD t)), ("updated_at", RVal.rint t)]

def save_promo (st : Store) (d : PromoIn) (t : Int) : Store :=
  st.hset (promoKey d.code) (promoFields d t)

/-- int() of the used field with dict-get default 0. -/
def promoUsedVal (r : Rec) : Option Int :=
  match lookupA r "used" with
  | none => some 0
  | some v => v.asInt

/-- The int() coercions of api_apply_promo, in source order: used with
default 0, then uses, then discount; any failure raises before the limit
check. -/
def decodePromoNums (r : Rec) : Option (Int × Int × Int) := do
  let used ← promoUsedVal r
  let uses ← (lookupA r "uses").bind RVal.asInt
  let disc ← (lookupA r "discount").bind RVal.asInt
  pure (used, uses, disc)

/-- Outcome of api_apply_promo as seen by the caller: 404, limit 400,
success with the discount, or the status 500 of a raised coercion. -/
inductive PromoResult where
  | notFound
  | limitReached
  | success (discount : Int)
  | errResp
  deriving DecidableEq

/-- POST handler api_apply_promo: load, 404 when absent, coerce, reject at
the limit, else HINCRBY used by one and return the discount. -/
def api_apply_promo (st : Store) (code : String) : PromoResult × Store :=
  match st.getRec (promoKey code) with
  | none => (PromoResult.notFound, st)
  | some r =>
    if r.isEmpty then (PromoResult.notFound, st)
    else
      match decodePromoNums r with
      | none => (PromoResult.errResp, st)
      | some (used, uses, disc) =>
        if used ≥ uses then (PromoResult.limitReached, st)
        else (PromoResult.success disc, st.hincrby (promoKey code) "used" 1)

/-! ### The connection-failure wrappers (claim C6)

Every repository operation runs inside a try block whose except branch
returns an empty list (list operations) or None (save operations).  A
store whose connection is down makes the first primitive raise; the
Option-of-Store argument models reachable versus unreachable store. -/

def get_all_products_conn : Option Store → List Product
  | none => []
  | some st => get_all_products st

def get_all_orders_conn : Option Store → List Order
  | none => []
  | some st => get_all_orders st

def get_orders_by_user_conn : Option Store → Int → List Order
  | none, _ => []
  | some st, u => get_orders_by_user st u

/-! ### Record and store lemmas -/

theorem setMany_append (r : Rec) (m1 m2 : List (String × RVal)) :
    setMany r (m1 ++ m2) = setMany (setMany r m1) m2 := by
  simp [setMany, List.foldl_append]

theorem setMany_cons (r : Rec) (f : String) (v : RVal) (m : List (String × RVal)) :
    setMany r ((f, v) :: m) = setMany (updA r f v) m := rfl

@[simp] theorem setMany_nil (r : Rec) : setMany r [] = r := rfl

theorem lookupA_setMany_unbound (r : Rec) (m : List (String × RVal)) (f : String)
    (h : ∀ p ∈ m, p.1 ≠ f) : lookupA (setMany r m) f = lookupA r f := by
  induction m generalizing r with
  | nil => rfl
  | cons p m ih =>
    obtain ⟨g, w⟩ := p
    rw [setMany_cons, ih _ (fun q hq => h q (List.mem_cons_of_mem _ hq))]
    exact lookupA_updA_ne _ _ _ _ (h (g, w) (List.mem_cons_self _ _))

theorem updA_ne_nil {α : Type} (l : List (String × α)) (k : String) (v : α) :
    updA l k v ≠ [] := by
  cases l with
  | nil => simp [updA]
  | cons p l =>
    obtain ⟨k0, v0⟩ := p
    by_cases h : k0 = k <;> simp [updA, h]

theorem setMany_ne_nil (r : Rec) (f : String) (v : RVal) (m : List (String × RVal)) :
    setMany r ((f, v) :: m) ≠ [] := by
  induction m generalizing r f v with
  | nil => exact updA_ne_nil r f v
  | cons p m ih =>
    obtain ⟨g, w⟩ := p
    rw [setMany_cons]
    exact ih (updA r f v) g w

theorem updA_of_not_mem {α : Type} (l : List (String × α)) (k : String) (v : α)
    (h : lookupA l k = none) : updA l k v = l ++ [(k, v)] := by
  induction l with
  | nil => rfl
  | cons p l ih =>
    obtain ⟨k0, v0⟩ := p
    by_cases h0 : k0 = k
    · subst h0; simp [lookupA] at h
    · simp only [lookupA, h0, if_false] at h
      simp [updA, h0, ih h]

theorem lookupA_isSome_mem_fst {α : Type} (l : List (String × α)) (k : String)
    (h : (lookupA l k).isSome) : k ∈ l.map Prod.fst := by
  induction l with
  | nil => simp [lookupA] at h
  | cons p l ih =>
    obtain ⟨k0, v0⟩ := p
    by_cases h0 : k0 = k
    · subst h0; simp
    · simp only [lookupA, h0, if_false] at h
      simp [ih h]

/-- A string is a prefix of itself followed by anything. -/
theorem hasPfx_append (p s : String) : p.data.isPrefixOf (p ++ s).data = true := by
  rw [String.data_append]
  simp [List.isPrefixOf_iff_prefix]

theorem keysWithPfx_hset (st : Store) (k : String) (m : List (String × RVal)) (p : String) :
    (st.hset k m).keysWithPfx p =
      if (lookupA st.recs k).isSome then st.keysWithPfx p
      else st.keysWithPfx p ++ (if p.data.isPrefixOf k.data then [k] else []) := by
  unfold Store.keysWithPfx Store.hset
  by_cases h : (lookupA st.recs k).isSome
  · simp only [h, if_true]
    rw [map_fst_updA_of_mem _ _ _ h]
  · simp only [h, if_false]
    rw [map_fst_updA_of_not_mem _ _ _ (Option.not_isSome_iff_eq_none.mp h)]
    rw [List.filter_append]
    congr 1
    cases hp : p.data.isPrefixOf k.data <;> simp [hp]

theorem getRec_hset_self (st : Store) (k : String) (m : List (String × RVal)) :
    (st.hset k m).getRec k = some (setMany ((st.getRec k).getD []) m) :=
  lookupA_updA_self _ _ _

theorem getRec_hset_ne (st : Store) (k m' : String) (m : List (String × RVal))
    (h : m' ≠ k) : (st.hset k m).getRec m' = st.getRec m' :=
  lookupA_updA_ne _ _ _ _ (fun he => h he.symm)

theorem mem_keysWithPfx_pfx (st : Store) (p k : String) (h : k ∈ st.keysWithPfx p) :
    p.data.isPrefixOf k.data = true :=
  (List.mem_filter.mp h).2

theorem recsUnder_hset_out (st : Store) (k : String) (m : List (String × RVal)) (pfx : String)
    (h : pfx.data.isPrefixOf k.data = false) :
    recsUnder (st.hset k m) pfx = recsUnder st pfx := by
  unfold recsUnder
  rw [keysWithPfx_hset]
  have hkeys : (if (lookupA st.recs k).isSome then st.keysWithPfx pfx
      else st.keysWithPfx pfx ++ (if pfx.data.isPrefixOf k.data then [k] else [])) =
      st.keysWithPfx pfx := by
    by_cases hs : (lookupA st.recs k).isSome <;> simp [hs, h]
  rw [hkeys]
  have hcongr : (st.keysWithPfx pfx).filterMap (st.hset k m).getRec =
      (st.keysWithPfx pfx).filterMap st.getRec := by
    apply List.filterMap_congr
    intro k' hk'
    apply getRec_hset_ne
    intro he
    rw [he] at hk'
    rw [mem_keysWithPfx_pfx st pfx k hk'] at h
    exact Bool.true_eq_false.mp h
  rw [hcongr]

/-- Any record enumerated after an HSET is either an old record or the
merged record at the written key. -/
theorem mem_recsUnder_hset (st : Store) (k : String) (m : List (String × RVal)) (pfx : String)
    (r : Rec) (h : r ∈ recsUnder (st.hset k m) pfx) :
    r ∈ recsUnder st pfx ∨ r = setMany ((st.getRec k).getD []) m := by
  unfold recsUnder at h ⊢
  obtain ⟨hmem, hne⟩ := List.mem_filter.mp h
  obtain ⟨k', hk', hget⟩ := List.mem_filterMap.mp hmem
  by_cases he : k' = k
  · subst he
    rw [getRec_hset_self] at hget
    exact Or.inr (Option.some_inj.mp hget).symm
  · rw [getRec_hset_ne st _ k' m he] at hget
    left
    apply List.mem_filter.mpr
    refine ⟨List.mem_filterMap.mpr ⟨k', ?_, hget⟩, hne⟩
    rw [keysWithPfx_hset] at hk'
    by_cases hs : (lookupA st.recs k).isSome
    · rwa [if_pos hs] at hk'
    · rw [if_neg hs] at hk'
      rcases List.mem_append.mp hk' with hk' | hk'
      · exact hk'
      · by_cases hp : pfx.data.isPrefixOf k.data = true
        · rw [if_pos hp] at hk'
          exact absurd (List.mem_singleton.mp hk') he
        · rw [if_neg hp] at hk'
          simp at hk'

/-- The merged record itself is enumerated after an HSET at an
in-namespace key, provided it is nonempty. -/
theorem merged_mem_recsUnder_hset (st : Store) (k : String) (m : List (String × RVal))
    (pfx : String) (hp : pfx.data.isPrefixOf k.data = true)
    (hne : setMany ((st.getRec k).getD []) m ≠ []) :
    setMany ((st.getRec k).getD []) m ∈ recsUnder (st.hset k m) pfx := by
  unfold recsUnder
  apply List.mem_filter.mpr
  constructor
  · apply List.mem_filterMap.mpr
    refine ⟨k, ?_, getRec_hset_self st k m⟩
    rw [keysWithPfx_hset]
    by_cases hs : (lookupA st.recs k).isSome
    · rw [if_pos hs]
      exact List.mem_filter.mpr ⟨lookupA_isSome_mem_fst _ _ hs, hp⟩
    · rw [if_neg hs]
      apply List.mem_append.mpr
      right
      rw [if_pos hp]
      exact List.mem_singleton.mpr rfl
  · simpa using hne

/-! ### decodeAll lemmas -/

theorem decodeAll_mem_exists {α : Type} (f : Rec → Option α) :
    ∀ (rs : List Rec) (l : List α), decodeAll f rs = some l →
      ∀ a ∈ l, ∃ r ∈ rs, f r = some a := by
  intro rs
  induction rs with
  | nil =>
    intro l h a ha
    simp only [decodeAll, Option.some_inj] at h
    subst h; simp at ha
  | cons r rs ih =>
    intro l h a ha
    simp only [decodeAll] at h
    cases hr : f r with
    | none => rw [hr] at h; simp at h
    | some b =>
      rw [hr] at h
      cases hrs : decodeAll f rs with
      | none => rw [hrs] at h; simp at h
      | some l' =>
        rw [hrs] at h
        simp only [Option.some_inj] at h
        subst h
        rcases List.mem_cons.mp ha with ha | ha
        · exact ⟨r, List.mem_cons_self _ _, ha ▸ hr⟩
        · obtain ⟨r', hr', hfr'⟩ := ih l' hrs a ha
          exact ⟨r', List.mem_cons_of_mem _ hr', hfr'⟩

theorem decodeAll_exists_mem {α : Type} (f : Rec → Option α) :
    ∀ (rs : List Rec) (l : List α), decodeAll f rs = some l →
      ∀ r ∈ rs, ∃ a ∈ l, f r = some a := by
  intro rs
  induction rs with
  | nil => intro l _ r hr; simp at hr
  | cons r0 rs ih =>
    intro l h r hr
    simp only [decodeAll] at h
    cases hr0 : f r0 with
    | none => rw [hr0] at h; simp at h
    | some b =>
      rw [hr0] at h
      cases hrs : decodeAll f rs with
      | none => rw [hrs] at h; simp at h
      | some l' =>
        rw [hrs] at h
        simp only [Option.some_inj] at h
        subst h
        rcases List.mem_cons.mp hr with hr | hr
        · exact ⟨b, List.mem_cons_self _ _, hr ▸ hr0⟩
        · obtain ⟨a, ha, hfa⟩ := ih l' hrs r hr
          exact ⟨a, List.mem_cons_of_mem _ ha, hfa⟩

theorem decodeAll_isSome {α : Type} (f : Rec → Option α) :
    ∀ (rs : List Rec), (∀ r ∈ rs, (f r).isSome) → ∃ l, decodeAll f rs = some l := by
  intro rs
  induction rs with
  | nil => intro _; exact ⟨[], rfl⟩
  | cons r rs ih =>
    intro h
    obtain ⟨b, hb⟩ := Option.isSome_iff_exists.mp (h r (List.mem_cons_self _ _))
    obtain ⟨l, hl⟩ := ih (fun r' hr' => h r' (List.mem_cons_of_mem _ hr'))
    exact ⟨b :: l, by simp [decodeAll, hb, hl]⟩

/-! ### Field extraction lemmas for the written mappings -/

theorem decodeOrder_orderFields (r : Rec) (i : Int) (d : OrderIn) (t : Int) :
    decodeOrder (setMany r (orderFields i d t)) =
      some ⟨i, d.userId, d.total, d.items, some (RVal.rstr (d.status.getD "pending"))⟩ := by
  simp [decodeOrder, orderFields, setMany, lookupA_updA_ne, lookupA_updA_self,
    RVal.asInt, loadsItems_dumpsItems]

theorem lookupA_orderFields_updated_at (r : Rec) (i : Int) (d : OrderIn) (t : Int) :
    lookupA (setMany r (orderFields i d t)) "updated_at" = lookupA r "updated_at" := by
  simp [orderFields, setMany, lookupA_updA_ne]

theorem decodeProduct_prodFields (r : Rec) (i : Int) (d : ProdIn) (t : Int) :
    decodeProduct (setMany r (prodFields i d t)) =
      some ⟨i, d.price, d.stock, some (RVal.rstr d.name)⟩ := by
  cases hd : d.description <;> cases he : d.emoji <;>
    simp [decodeProduct, prodFields, hd, he, setMany,
      lookupA_updA_ne, lookupA_updA_self, RVal.asInt]

theorem lookupA_prodFields_created_at (r : Rec) (i : Int) (d : ProdIn) (t : Int) :
    lookupA (setMany r (prodFields i d t)) "created_at" =
      some (RVal.rint (d.created_at.getD t)) := by
  cases hd : d.description <;> cases he : d.emoji <;>
    simp [prodFields, hd, he, setMany, lookupA_updA_ne, lookupA_updA_self]

theorem lookupA_prodFields_updated_at (r : Rec) (i : Int) (d : ProdIn) (t : Int) :
    lookupA (setMany r (prodFields i d t)) "updated_at" = some (RVal.rint t) := by
  cases hd : d.description <;> cases he : d.emoji <;>
    simp [prodFields, hd, he, setMany, lookupA_updA_ne, lookupA_updA_self]

/-! ### Frame lemmas for the enumerating readers -/

theorem get_all_orders_hset_out (st : Store) (k : String) (m : List (String × RVal))
    (h : (ORDERS_KEY ++ ":").data.isPrefixOf k.data = false) :
    get_all_orders (st.hset k m) = get_all_orders st := by
  unfold get_all_orders
  rw [recsUnder_hset_out st k m _ h]

theorem stats_key_not_orders :
    (ORDERS_KEY ++ ":").data.isPrefixOf STATS_KEY.data = false := by decide

theorem get_all_orders_update_stats (st : Store) (t : Int) :
    get_all_orders (update_stats st t) = get_all_orders st := by
  unfold update_stats
  by_cases h : (get_all_orders st).all (fun o => o.status.isSome)
  · rw [if_pos h]
    exact get_all_orders_hset_out st _ _ stats_key_not_orders
  · rw [if_neg h]

/-- The stored revenue aggregate as a raw field of the singleton record. -/
def statsRevenue (st : Store) : Option RVal :=
  (st.getRec STATS_KEY).bind (fun r => lookupA r "total_revenue")

/-- The claimed invariant: the persisted revenue equals the recomputed sum
over the completed orders of the current list. -/
def StatsOK (st : Store) : Prop :=
  statsRevenue st = some (RVal.rint (completedSum (get_all_orders st)))

/-- Every order record in the namespace decodes and carries a status field
(true of every store reachable through the repository operations). -/
def ordersGood (st : Store) : Bool :=
  (recsUnder st (ORDERS_KEY ++ ":")).all (fun r =>
    match decodeOrder r with
    | some o => o.status.isSome
    | none => false)

theorem ordersGood_update_stats (st : Store) (t : Int) :
    ordersGood (update_stats st t) = ordersGood st := by
  unfold update_stats
  by_cases h : (get_all_orders st).all (fun o => o.status.isSome)
  · rw [if_pos h]
    unfold ordersGood
    rw [recsUnder_hset_out st _ _ _ stats_key_not_orders]
  · rw [if_neg h]

theorem mem_get_all_orders (st : Store) (o : Order) (h : o ∈ get_all_orders st) :
    ∃ r ∈ recsUnder st (ORDERS_KEY ++ ":"), decodeOrder r = some o := by
  unfold get_all_orders at h
  cases hd : decodeAll decodeOrder (recsUnder st (ORDERS_KEY ++ ":")) with
  | none => rw [hd] at h; simp at h
  | some os =>
    rw [hd] at h
    exact decodeAll_mem_exists decodeOrder _ os hd o ((List.mem_insertionSort _).mp h)

theorem ordersGood_all_status (st : Store) (h : ordersGood st = true) :
    (get_all_orders st).all (fun o => o.status.isSome) = true := by
  apply List.all_eq_true.mpr
  intro o ho
  obtain ⟨r, hr, hdec⟩ := mem_get_all_orders st o ho
  have := List.all_eq_true.mp h r hr
  rw [hdec] at this
  exact this

theorem statsOK_update_stats (st : Store) (t : Int) (h : ordersGood st = true) :
    StatsOK (update_stats st t) := by
  have hall := ordersGood_all_status st h
  unfold StatsOK statsRevenue
  have hframe : get_all_orders (update_stats st t) = get_all_orders st :=
    get_all_orders_update_stats st t
  rw [hframe]
  unfold update_stats
  rw [if_pos hall]
  rw [getRec_hset_self]
  simp [setMany, lookupA_updA_ne, lookupA_updA_self]

/-- Every record reader depends only on the record table, so counter
updates are invisible to it. -/
theorem get_all_orders_set_counters (st : Store) (c : List (String × Nat)) :
    get_all_orders { st with counters := c } = get_all_orders st := rfl

theorem ordersGood_set_counters (st : Store) (c : List (String × Nat)) :
    ordersGood { st with counters := c } = ordersGood st := rfl

/-- HSET at an order key whose merged record still decodes with a status
preserves the order-records invariant. -/
theorem ordersGood_hset_order (st : Store) (k : String) (m : List (String × RVal))
    (hm : (match decodeOrder (setMany ((st.getRec k).getD []) m) with
      | some o => o.status.isSome
      | none => false) = true)
    (h : ordersGood st = true) : ordersGood (st.hset k m) = true := by
  apply List.all_eq_true.mpr
  intro r hr
  rcases mem_recsUnder_hset st k m _ r hr with hr' | hr'
  · exact List.all_eq_true.mp h r hr'
  · rw [hr']
    exact hm

/-- Operations on orders: a checkout (save_order) or a status change
(api_update_order_status), with the wall-clock time of the call. -/
inductive OrderOp where
  | create (d : OrderIn) (t : Int)
  | setStatus (i : Int) (s : String) (t : Int)

def applyOp (st : Store) : OrderOp → Store
  | OrderOp.create d t => (save_order st d t).2
  | OrderOp.setStatus i s t => (api_update_order_status st i s t).2

def applyOps (st : Store) (ops : List OrderOp) : Store := ops.foldl applyOp st

theorem decodeOrder_updA_status (r : Rec) (v : RVal) :
    decodeOrder (updA r "status" v) =
      (decodeOrder r).map (fun o => { o with status := some v }) := by
  simp only [decodeOrder, lookupA_updA_ne r "status" "id" v (by decide),
    lookupA_updA_ne r "status" "userId" v (by decide),
    lookupA_updA_ne r "status" "total" v (by decide),
    lookupA_updA_ne r "status" "items" v (by decide),
    lookupA_updA_self r "status" v]
  cases (lookupA r "id").bind RVal.asInt <;>
    cases (lookupA r "userId").bind RVal.asInt <;>
      cases (lookupA r "total").bind RVal.asInt <;> simp
  cases hit : lookupA r "items" with
  | none => simp
  | some w => cases w <;> simp <;> cases loadsItems _ <;> simp

theorem decodeOrder_updA_updated_at (r : Rec) (v : RVal) :
    decodeOrder (updA r "updated_at" v) = decodeOrder r := by
  simp only [decodeOrder, lookupA_updA_ne r "updated_at" "id" v (by decide),
    lookupA_updA_ne r "updated_at" "userId" v (by decide),
    lookupA_updA_ne r "updated_at" "total" v (by decide),
    lookupA_updA_ne r "updated_at" "items" v (by decide),
    lookupA_updA_ne r "updated_at" "status" v (by decide)]

/-- An existing nonempty record at a namespaced key is among the
enumerated records. -/
theorem getRec_mem_recsUnder (st : Store) (pfx s : String) (r : Rec)
    (hget : st.getRec (pfx ++ s) = some r) (hne : r ≠ []) :
    r ∈ recsUnder st pfx := by
  unfold recsUnder
  apply List.mem_filter.mpr
  refine ⟨List.mem_filterMap.mpr ⟨pfx ++ s, ?_, hget⟩, by simpa using hne⟩
  apply List.mem_filter.mpr
  refine ⟨lookupA_isSome_mem_fst _ _ (by simp [Store.getRec] at hget; simp [hget]), ?_⟩
  exact hasPfx_append pfx s

theorem orderKey_pfx (i : Int) :
    orderKey i = (ORDERS_KEY ++ ":") ++ intStr i := by
  unfold orderKey
  rw [String.append_assoc]

theorem invariant_applyOp (st : Store) (op : OrderOp)
    (h1 : ordersGood st = true) (h2 : StatsOK st) :
    ordersGood (applyOp st op) = true ∧ StatsOK (applyOp st op) := by
  cases op with
  | create d t =>
    show ordersGood (save_order st d t).2 = true ∧ StatsOK (save_order st d t).2
    unfold save_order
    cases hid : d.id with
    | some i =>
      dsimp only
      have hg2 : ordersGood (st.hset (orderKey i) (orderFields i d t)) = true := by
        apply ordersGood_hset_order st _ _ _ h1
        rw [decodeOrder_orderFields]
        simp
      refine ⟨?_, statsOK_update_stats _ t hg2⟩
      rw [ordersGood_update_stats]
      exact hg2
    | none =>
      dsimp only
      set st1 := (get_next_id st ORDERS_KEY).2 with hst1
      have hrecs : st1.recs = st.recs := rfl
      have hg1 : ordersGood st1 = true := by
        have : ordersGood st1 = ordersGood st := by
          unfold ordersGood recsUnder Store.keysWithPfx Store.getRec
          rw [hrecs]
        rw [this]; exact h1
      set i : Int := ((get_next_id st ORDERS_KEY).1 : Int)
      have hg2 : ordersGood (st1.hset (orderKey i) (orderFields i d t)) = true := by
        apply ordersGood_hset_order st1 _ _ _ hg1
        rw [decodeOrder_orderFields]
        simp
      refine ⟨?_, statsOK_update_stats _ t hg2⟩
      rw [ordersGood_update_stats]
      exact hg2
  | setStatus i s t =>
    show ordersGood (api_update_order_status st i s t).2 = true ∧
      StatsOK (api_update_order_status st i s t).2
    unfold api_update_order_status
    by_cases hex : st.existsKey (orderKey i)
    · rw [if_pos hex]
      dsimp only
      obtain ⟨r, hr, hrne⟩ : ∃ r, st.getRec (orderKey i) = some r ∧ r ≠ [] := by
        unfold Store.existsKey at hex
        cases hg : lookupA st.recs (orderKey i) with
        | none => rw [hg] at hex; simp at hex
        | some r =>
          rw [hg] at hex
          refine ⟨r, hg, ?_⟩
          simpa using hex
      have hrmem : r ∈ recsUnder st (ORDERS_KEY ++ ":") := by
        apply getRec_mem_recsUnder st _ (intStr i) r _ hrne
        rw [← orderKey_pfx]; exact hr
      have hrdec : ∃ o, decodeOrder r = some o := by
        have := List.all_eq_true.mp h1 r hrmem
        cases hd : decodeOrder r with
        | none => rw [hd] at this; simp at this
        | some o => exact ⟨o, rfl⟩
      obtain ⟨o, ho⟩ := hrdec
      -- first HSET: status
      have hm1 : (st.hset1 (orderKey i) "status" (RVal.rstr s)).getRec (orderKey i) =
          some (updA r "status" (RVal.rstr s)) := by
        unfold Store.hset1
        rw [getRec_hset_self, hr]
        rfl
      have hg1 : ordersGood (st.hset1 (orderKey i) "status" (RVal.rstr s)) = true := by
        apply ordersGood_hset_order st _ _ _ h1
        have hgd : (st.getRec (orderKey i)).getD [] = r := by rw [hr]; rfl
        rw [hgd]
        have hsm : setMany r [("status", RVal.rstr s)] = updA r "status" (RVal.rstr s) := rfl
        rw [hsm, decodeOrder_updA_status, ho]
        simp
      -- second HSET: updated_at
      set st1 := st.hset1 (orderKey i) "status" (RVal.rstr s)
      have hg2 : ordersGood (st1.hset1 (orderKey i) "updated_at" (RVal.rint t)) = true := by
        apply ordersGood_hset_order st1 _ _ _ hg1
        have hgd : (st1.getRec (orderKey i)).getD [] = updA r "status" (RVal.rstr s) := by
          rw [hm1]; rfl
        rw [hgd]
        have hsm : setMany (updA r "status" (RVal.rstr s)) [("updated_at", RVal.rint t)] =
            updA (updA r "status" (RVal.rstr s)) "updated_at" (RVal.rint t) := rfl
        rw [hsm, decodeOrder_updA_updated_at, decodeOrder_updA_status, ho]
        simp
      refine ⟨?_, statsOK_update_stats _ t hg2⟩
      rw [ordersGood_update_stats]
      exact hg2
    · rw [if_neg hex]
      exact ⟨h1, h2⟩

theorem getRec_update_stats_ne (st : Store) (t : Int) (k : String) (h : k ≠ STATS_KEY) :
    (update_stats st t).getRec k = st.getRec k := by
  unfold update_stats
  by_cases hall : (get_all_orders st).all (fun o => o.status.isSome)
  · rw [if_pos hall]
    exact getRec_hset_ne st STATS_KEY k _ h
  · rw [if_neg hall]

theorem orderKey_ne_stats (i : Int) : orderKey i ≠ STATS_KEY := by
  intro h
  have hp : (ORDERS_KEY ++ ":").data.isPrefixOf (orderKey i).data = true := by
    rw [orderKey_pfx]
    exact hasPfx_append _ _
  rw [h, stats_key_not_orders] at hp
  exact Bool.false_ne_true hp

/-! ### Claim theorems -/

/-- C1: after any sequence of order creations and order status changes,
starting from any store whose order records are well formed and whose
persisted statistics are consistent (both hold for every store the startup
recomputation or any prior operation has produced), the persisted stats
record field total_revenue equals the sum of the total fields over exactly
those orders whose current status is completed. -/
theorem stats_revenue_invariant (st : Store) (ops : List OrderOp)
    (h1 : ordersGood st = true) (h2 : StatsOK st) :
    ordersGood (applyOps st ops) = true ∧ StatsOK (applyOps st ops) := by
  induction ops generalizing st with
  | nil => exact ⟨h1, h2⟩
  | cons op ops ih =>
    have h' := invariant_applyOp st op h1 h2
    exact ih (applyOp st op) h'.1 h'.2

def stW : Store := update_stats ⟨[], []⟩ 0

def opsW : List OrderOp :=
  [OrderOp.create ⟨none, 7, [⟨1, 2, 450⟩], 450, none, none⟩ 30,
   OrderOp.create ⟨none, 8, [⟨2, 1, 300⟩], 300, none, none⟩ 31,
   OrderOp.create ⟨none, 7, [⟨3, 1, 999⟩], 999, none, none⟩ 32,
   OrderOp.setStatus 1 "completed" 40,
   OrderOp.setStatus 2 "completed" 41]

/-- Witness for C1: from the freshly initialized store, create three
orders with totals 450, 300 and 999 and complete the first two; the
invariant transports along the run, and the persisted revenue is exactly
450 + 300. -/
theorem stats_revenue_invariant_witness :
    (ordersGood stW = true ∧ StatsOK stW) ∧
    (ordersGood (applyOps stW opsW) = true ∧ StatsOK (applyOps stW opsW)) ∧
    statsRevenue (applyOps stW opsW) = some (RVal.rint (450 + 300)) :=
  ⟨⟨by decide, by unfold StatsOK; decide⟩,
   stats_revenue_invariant stW opsW (by decide) (by unfold StatsOK; decide),
   by decide⟩

/-- C7: for every user id and store state, listByUser returns exactly the
orders of list() whose userId matches, and that sublist is still in the
descending-by-id order of the parent list. -/
theorem listByUser_spec (st : Store) (u : Int) :
    get_orders_by_user st u = (get_all_orders st).filter (fun o => o.userId == u) ∧
    List.Sorted (fun a b : Order => b.id ≤ a.id) (get_orders_by_user st u) := by
  constructor
  · rfl
  · unfold get_orders_by_user
    apply List.Pairwise.filter
    unfold get_all_orders
    cases hd : decodeAll decodeOrder (recsUnder st (ORDERS_KEY ++ ":")) with
    | none => simp
    | some os =>
      haveI : IsTotal Order (fun a b => b.id ≤ a.id) :=
        ⟨fun a b => (Int.le_total b.id a.id)⟩
      haveI : IsTrans Order (fun a b => b.id ≤ a.id) :=
        ⟨fun _ _ _ hab hbc => le_trans hbc hab⟩
      simpa using List.sorted_insertionSort (fun a b : Order => b.id ≤ a.id) os

/-- C10: save_order never writes updated_at: the target record keeps its
previous updated_at value (in particular a record created fresh has none),
and the status-update handler is what sets it, to the time of that call. -/
theorem save_order_no_updated_at (st : Store) (d : OrderIn) (t : Int) :
    (((save_order st d t).2.getRec (orderKey (save_order st d t).1.id)).bind
        (fun r => lookupA r "updated_at")) =
      ((st.getRec (orderKey (save_order st d t).1.id)).bind
        (fun r => lookupA r "updated_at")) ∧
    (st.getRec (orderKey (save_order st d t).1.id) = none →
      ((save_order st d t).2.getRec (orderKey (save_order st d t).1.id)).bind
        (fun r => lookupA r "updated_at") = none) ∧
    (∀ (i : Int) (s : String) (t' : Int), (api_update_order_status st i s t').1 = true →
      ((api_update_order_status st i s t').2.getRec (orderKey i)).bind
        (fun r => lookupA r "updated_at") = some (RVal.rint t')) := by
  have main : ∀ (st1 : Store) (i : Int),
      st1.recs = st.recs →
      ((update_stats (st1.hset (orderKey i) (orderFields i d t)) t).getRec
          (orderKey i)).bind (fun r => lookupA r "updated_at") =
        (st.getRec (orderKey i)).bind (fun r => lookupA r "updated_at") := by
    intro st1 i hrecs
    rw [getRec_update_stats_ne _ _ _ (orderKey_ne_stats i)]
    rw [getRec_hset_self]
    have hg : st1.getRec (orderKey i) = st.getRec (orderKey i) := by
      unfold Store.getRec; rw [hrecs]
    rw [hg]
    simp only [Option.some_bind]
    rw [lookupA_orderFields_updated_at]
    cases st.getRec (orderKey i) with
    | none => rfl
    | some r => rfl
  refine ⟨?_, ?_, ?_⟩
  · show ((save_order st d t).2.getRec _).bind _ = _
    unfold save_order
    cases hid : d.id with
    | some i => exact main st i rfl
    | none => exact main _ _ rfl
  · intro hnone
    have h1 : (((save_order st d t).2.getRec (orderKey (save_order st d t).1.id)).bind
        (fun r => lookupA r "updated_at")) =
      ((st.getRec (orderKey (save_order st d t).1.id)).bind
        (fun r => lookupA r "updated_at")) := by
      show ((save_order st d t).2.getRec _).bind _ = _
      unfold save_order
      cases hid : d.id with
      | some i => exact main st i rfl
      | none => exact main _ _ rfl
    rw [h1, hnone]
    rfl
  · intro i s t' hres
    unfold api_update_order_status at hres ⊢
    by_cases hex : st.existsKey (orderKey i)
    · rw [if_pos hex]
      dsimp only
      rw [getRec_update_stats_ne _ _ _ (orderKey_ne_stats i)]
      unfold Store.hset1
      rw [getRec_hset_self]
      simp only [Option.some_bind]
      exact lookupA_updA_self _ _ _
    · rw [if_neg hex] at hres
      exact absurd hres (by simp)

def stO : Store := ⟨[], []⟩

/-- Witness for C10: a fresh order record carries no updated_at field
until its status is updated, at which point updated_at is the time of the
status call. -/
theorem save_order_no_updated_at_witness :
    ((save_order stO ⟨none, 7, [⟨1, 2, 450⟩], 450, none, none⟩ 30).2.getRec
        (orderKey 1)).bind (fun r => lookupA r "updated_at") = none ∧
    ((api_update_order_status
        (save_order stO ⟨none, 7, [⟨1, 2, 450⟩], 450, none, none⟩ 30).2 1 "completed" 40).2.getRec
        (orderKey 1)).bind (fun r => lookupA r "updated_at") = some (RVal.rint 40) :=
  ⟨(save_order_no_updated_at stO ⟨none, 7, [⟨1, 2, 450⟩], 450, none, none⟩ 30).2.1 (by decide),
   (save_order_no_updated_at
      (save_order stO ⟨none, 7, [⟨1, 2, 450⟩], 450, none, none⟩ 30).2
      ⟨none, 7, [], 450, none, none⟩ 99).2.2 1 "completed" 40 (by decide)⟩

def stC5a : Store := (save_product ⟨[], []⟩ ⟨none, "A", "c", 5, 7, none, none, none⟩ 10).2

def stC5b : Store := (api_update_product stC5a 1 ⟨none, "B", "c", 6, 8, none, none, none⟩ 20).2

/-- Counterexample to C5: a product created at time 10 has created_at 10;
an update at time 20 whose payload lacks a created_at key rewrites the
stored created_at to 20, so an update call does change created_at. -/
theorem product_update_changes_created_at :
    (stC5a.getRec (productKey 1)).bind (fun r => lookupA r "created_at") =
      some (RVal.rint 10) ∧
    (stC5b.getRec (productKey 1)).bind (fun r => lookupA r "created_at") =
      some (RVal.rint 20) := by
  constructor <;> decide

/-- C5 amended: an update writes created_at from the payload when the
payload carries it and resets it to the call time otherwise (so the stored
creation time is preserved only when the payload echoes it back), and it
always sets updated_at to the call time, which is at least the previous
updated_at whenever the clock is monotone. -/
theorem product_update_timestamps (st : Store) (pid : Int) (d : ProdIn) (t : Int) :
    ((api_update_product st pid d t).2.getRec (productKey pid)).bind
        (fun r => lookupA r "created_at") = some (RVal.rint (d.created_at.getD t)) ∧
    ((api_update_product st pid d t).2.getRec (productKey pid)).bind
        (fun r => lookupA r "updated_at") = some (RVal.rint t) ∧
    (∀ u : Int, (st.getRec (productKey pid)).bind (fun r => lookupA r "updated_at") =
        some (RVal.rint u) → u ≤ t →
      ∃ v : Int, ((api_update_product st pid d t).2.getRec (productKey pid)).bind
          (fun r => lookupA r "updated_at") = some (RVal.rint v) ∧ u ≤ v) := by
  have hca : ((api_update_product st pid d t).2.getRec (productKey pid)).bind
      (fun r => lookupA r "created_at") = some (RVal.rint (d.created_at.getD t)) := by
    unfold api_update_product save_product
    dsimp only
    rw [getRec_hset_self]
    simp only [Option.some_bind]
    exact lookupA_prodFields_created_at _ _ _ _
  have hua : ((api_update_product st pid d t).2.getRec (productKey pid)).bind
      (fun r => lookupA r "updated_at") = some (RVal.rint t) := by
    unfold api_update_product save_product
    dsimp only
    rw [getRec_hset_self]
    simp only [Option.some_bind]
    exact lookupA_prodFields_updated_at _ _ _ _
  exact ⟨hca, hua, fun u _ hu => ⟨t, hua, hu⟩⟩

/-- Witness for C5 amended: updating product 1 at time 20 with a payload
lacking created_at stores created_at 20 and updated_at 20, which is at
least the previous updated_at 10. -/
theorem product_update_timestamps_witness :
    (stC5b.getRec (productKey 1)).bind (fun r => lookupA r "created_at") =
      some (RVal.rint 20) ∧
    (∃ v : Int, (stC5b.getRec (productKey 1)).bind (fun r => lookupA r "updated_at") =
      some (RVal.rint v) ∧ (10 : Int) ≤ v) :=
  ⟨(product_update_timestamps stC5a 1 ⟨none, "B", "c", 6, 8, none, none, none⟩ 20).1,
   (product_update_timestamps stC5a 1 ⟨none, "B", "c", 6, 8, none, none, none⟩ 20).2.2
     10 (by decide) (by decide)⟩

/-- Counterexample to C6: a store failure during the product enumeration
is caught and returned as an empty list, indistinguishable from the
successful empty result on an empty store, so the failure is not reported
as a typed outcome. -/
theorem store_failure_empty_success :
    get_all_products_conn none = get_all_products_conn (some ⟨[], []⟩) ∧
    get_all_products_conn none = [] := ⟨rfl, rfl⟩

/-- C6 amended: the list-returning repository operations swallow an
underlying store failure into an empty list rather than reporting a typed
failure (the save operations do surface a failure sentinel, but the list
operations do not). -/
theorem store_failures_swallowed :
    get_all_products_conn none = [] ∧ get_all_orders_conn none = [] ∧
    ∀ u : Int, get_orders_by_user_conn none u = [] := ⟨rfl, rfl, fun _ => rfl⟩

theorem lookupA_promoFields_used (r : Rec) (d : PromoIn) (t : Int) :
    lookupA (setMany r (promoFields d t)) "used" = some (RVal.rint (d.used.getD 0)) := by
  simp [promoFields, setMany, lookupA_updA_ne, lookupA_updA_self]

theorem lookupA_promoFields_uses (r : Rec) (d : PromoIn) (t : Int) :
    lookupA (setMany r (promoFields d t)) "uses" = some (RVal.rint d.uses) := by
  simp [promoFields, setMany, lookupA_updA_ne, lookupA_updA_self]

theorem lookupA_promoFields_discount (r : Rec) (d : PromoIn) (t : Int) :
    lookupA (setMany r (promoFields d t)) "discount" = some (RVal.rint d.discount) := by
  simp [promoFields, setMany, lookupA_updA_ne, lookupA_updA_self]

theorem decodePromoNums_promoFields (r : Rec) (d : PromoIn) (t : Int) :
    decodePromoNums (setMany r (promoFields d t)) =
      some (d.used.getD 0, d.uses, d.discount) := by
  simp [decodePromoNums, promoUsedVal, lookupA_promoFields_used, lookupA_promoFields_uses,
    lookupA_promoFields_discount, RVal.asInt]

theorem promoFields_ne_nil (r : Rec) (d : PromoIn) (t : Int) :
    setMany r (promoFields d t) ≠ [] :=
  setMany_ne_nil r _ _ _

/-- The decoded used counter agrees with what HINCRBY reads: used comes
from the same field with the same absent-means-zero default. -/
theorem decodePromoNums_used_eq (r : Rec) (used uses disc : Int)
    (h : decodePromoNums r = some (used, uses, disc)) :
    ((lookupA r "used").bind RVal.asInt).getD 0 = used := by
  unfold decodePromoNums at h
  obtain ⟨u0, hu0, h⟩ := Option.bind_eq_some.mp h
  obtain ⟨us, hus, h⟩ := Option.bind_eq_some.mp h
  obtain ⟨dc, hdc, h⟩ := Option.bind_eq_some.mp h
  have heq : u0 = used := by
    have := Option.some_inj.mp h
    exact congrArg Prod.fst this
  subst heq
  unfold promoUsedVal at hu0
  cases hu : lookupA r "used" with
  | none =>
    rw [hu] at hu0
    simp only [Option.some_inj] at hu0
    simp [← hu0]
  | some v =>
    rw [hu] at hu0
    dsimp only at hu0
    simp [hu0]

/-- C3: applying a promo code fails with NotFound when no record exists
under the code, fails with LimitReached when used is at least uses,
otherwise increments used by exactly one in the store and returns the
discount; consequently a promo created with uses 1 succeeds once, leaving
used 1, and fails with LimitReached on the second application. -/
theorem promo_apply_spec :
    (∀ (st : Store) (code : String), st.getRec (promoKey code) = none →
      api_apply_promo st code = (PromoResult.notFound, st)) ∧
    (∀ (st : Store) (code : String) (r : Rec) (used uses disc : Int),
      st.getRec (promoKey code) = some r →
      decodePromoNums r = some (used, uses, disc) → used ≥ uses →
      api_apply_promo st code = (PromoResult.limitReached, st)) ∧
    (∀ (st : Store) (code : String) (r : Rec) (used uses disc : Int),
      st.getRec (promoKey code) = some r →
      decodePromoNums r = some (used, uses, disc) → used < uses →
      api_apply_promo st code =
        (PromoResult.success disc, st.hincrby (promoKey code) "used" 1) ∧
      ((st.hincrby (promoKey code) "used" 1).getRec (promoKey code)).bind
        (fun r' => lookupA r' "used") = some (RVal.rint (used + 1))) ∧
    (∀ (st : Store) (code : String) (disc t : Int),
      (api_apply_promo (save_promo st ⟨code, disc, 1, none, none⟩ t) code).1 =
        PromoResult.success disc ∧
      ((api_apply_promo (save_promo st ⟨code, disc, 1, none, none⟩ t) code).2.getRec
          (promoKey code)).bind (fun r' => lookupA r' "used") = some (RVal.rint 1) ∧
      (api_apply_promo
          (api_apply_promo (save_promo st ⟨code, disc, 1, none, none⟩ t) code).2
          code).1 = PromoResult.limitReached) := by
  have hdec_ne_nil : ∀ (r : Rec) (used uses disc : Int),
      decodePromoNums r = some (used, uses, disc) → r.isEmpty = false := by
    intro r used uses disc h
    cases r with
    | nil => simp [decodePromoNums, lookupA] at h
    | cons p r => rfl
  have hnotFound : ∀ (st : Store) (code : String), st.getRec (promoKey code) = none →
      api_apply_promo st code = (PromoResult.notFound, st) := by
    intro st code h
    unfold api_apply_promo
    rw [h]
  have hlimit : ∀ (st : Store) (code : String) (r : Rec) (used uses disc : Int),
      st.getRec (promoKey code) = some r →
      decodePromoNums r = some (used, uses, disc) → used ≥ uses →
      api_apply_promo st code = (PromoResult.limitReached, st) := by
    intro st code r used uses disc hget hdec hge
    unfold api_apply_promo
    rw [hget]
    dsimp only
    rw [hdec_ne_nil r used uses disc hdec]
    simp only [Bool.false_eq_true, if_false]
    rw [hdec]
    dsimp only
    rw [if_pos hge]
  have hsuccess : ∀ (st : Store) (code : String) (r : Rec) (used uses disc : Int),
      st.getRec (promoKey code) = some r →
      decodePromoNums r = some (used, uses, disc) → used < uses →
      api_apply_promo st code =
        (PromoResult.success disc, st.hincrby (promoKey code) "used" 1) ∧
      ((st.hincrby (promoKey code) "used" 1).getRec (promoKey code)).bind
        (fun r' => lookupA r' "used") = some (RVal.rint (used + 1)) := by
    intro st code r used uses disc hget hdec hlt
    constructor
    · unfold api_apply_promo
      rw [hget]
      dsimp only
      rw [hdec_ne_nil r used uses disc hdec]
      simp only [Bool.false_eq_true, if_false]
      rw [hdec]
      dsimp only
      rw [if_neg (by omega)]
    · unfold Store.hincrby Store.getRec
      dsimp only
      rw [lookupA_updA_self]
      simp only [Option.some_bind]
      have hr : (lookupA st.recs (promoKey code)).getD [] = r := by
        have : lookupA st.recs (promoKey code) = some r := hget
        rw [this]; rfl
      rw [hr, lookupA_updA_self]
      rw [decodePromoNums_used_eq r used uses disc hdec]
  refine ⟨hnotFound, hlimit, hsuccess, ?_⟩
  intro st code disc t
  set st1 := save_promo st ⟨code, disc, 1, none, none⟩ t with hst1
  have hget1 : st1.getRec (promoKey code) =
      some (setMany ((st.getRec (promoKey code)).getD []) (promoFields ⟨code, disc, 1, none, none⟩ t)) :=
    getRec_hset_self st _ _
  set r1 := setMany ((st.getRec (promoKey code)).getD []) (promoFields ⟨code, disc, 1, none, none⟩ t)
    with hr1
  have hdec1 : decodePromoNums r1 = some (0, 1, disc) := by
    rw [hr1, decodePromoNums_promoFields]
    rfl
  obtain ⟨happ1, hused1⟩ :=
    hsuccess st1 code r1 0 1 disc hget1 hdec1 (by omega)
  refine ⟨by rw [happ1], ?_, ?_⟩
  · rw [happ1]
    exact hused1
  · rw [happ1]
    dsimp only
    set st2 := st1.hincrby (promoKey code) "used" 1 with hst2
    have hget2 : st2.getRec (promoKey code) = some (updA r1 "used" (RVal.rint 1)) := by
      rw [hst2]
      unfold Store.hincrby Store.getRec
      dsimp only
      rw [lookupA_updA_self]
      have hr : (lookupA st1.recs (promoKey code)).getD [] = r1 := by
        have : lookupA st1.recs (promoKey code) = some r1 := hget1
        rw [this]; rfl
      rw [hr]
      have hold : ((lookupA r1 "used").bind RVal.asInt).getD 0 = 0 :=
        decodePromoNums_used_eq r1 0 1 disc hdec1
      rw [hold]
      norm_num
    have hdec2 : decodePromoNums (updA r1 "used" (RVal.rint 1)) = some (1, 1, disc) := by
      have hu : promoUsedVal (updA r1 "used" (RVal.rint 1)) = some 1 := by
        unfold promoUsedVal
        rw [lookupA_updA_self]
        rfl
      have huses : lookupA (updA r1 "used" (RVal.rint 1)) "uses" = some (RVal.rint 1) := by
        rw [lookupA_updA_ne r1 "used" "uses" _ (by decide), hr1]
        exact lookupA_promoFields_uses _ _ _
      have hdisc : lookupA (updA r1 "used" (RVal.rint 1)) "discount" =
          some (RVal.rint disc) := by
        rw [lookupA_updA_ne r1 "used" "discount" _ (by decide), hr1]
        exact lookupA_promoFields_discount _ _ _
      unfold decodePromoNums
      rw [hu, huses, hdisc]
      simp [RVal.asInt]
    have := hlimit st2 code (updA r1 "used" (RVal.rint 1)) 1 1 disc hget2 hdec2 (by omega)
    rw [this]

def stP : Store := ⟨[], []⟩

/-- Witness for C3: on the empty store an unknown code is NotFound; a
promo SALE with discount 15 and uses 1 succeeds on first application. -/
theorem promo_apply_spec_witness :
    api_apply_promo stP "NOPE" = (PromoResult.notFound, stP) ∧
    (api_apply_promo (save_promo stP ⟨"SALE", 15, 1, none, none⟩ 5) "SALE").1 =
      PromoResult.success 15 :=
  ⟨promo_apply_spec.1 stP "NOPE" rfl,
   (promo_apply_spec.2.2.2 stP "SALE" 15 5).1⟩

theorem updA_self_value {α : Type} (l : List (String × α)) (f : String) (v : α)
    (h : lookupA l f = some v) : updA l f v = l := by
  induction l with
  | nil => simp [lookupA] at h
  | cons p l ih =>
    obtain ⟨k, w⟩ := p
    by_cases hk : k = f
    · subst hk
      have hw : w = v := by simpa [lookupA] using h
      subst hw
      simp [updA]
    · simp only [lookupA, hk, if_false] at h
      simp [updA, hk, ih h]

theorem setMany_userFields_nil (u : UserIn) (t : Int) :
    setMany [] (userFields u t) = userFields u t := rfl

theorem decodeUser_userFields (uid : Nat) (u : UserIn) (t : Int)
    (hid : u.id = uid) (hadm : u.isAdmin = isAdminId uid) :
    decodeUser uid (userFields u t) =
      some (updA (userFields u t) "referrals" (RVal.rints u.referrals)) := by
  unfold decodeUser
  have h1 : (lookupA (userFields u t) "id").bind RVal.asInt = some ((u.id : Int)) := by
    simp [userFields, lookupA, RVal.asInt]
  have h2 : userBonusVal (userFields u t) = some u.bonus := by
    simp [userBonusVal, userFields, lookupA, RVal.asInt]
  have h3 : userReferralsVal (userFields u t) = some u.referrals := by
    simp [userReferralsVal, userFields, lookupA, loadsInts_dumpsInts]
  have hidv : updA (userFields u t) "id" (RVal.rint (u.id : Int)) = userFields u t :=
    updA_self_value _ _ _ (by simp [userFields, lookupA])
  have hbv : updA (userFields u t) "bonus" (RVal.rint u.bonus) = userFields u t :=
    updA_self_value _ _ _ (by simp [userFields, lookupA])
  have hadmv : updA (updA (userFields u t) "referrals" (RVal.rints u.referrals)) "isAdmin"
      (RVal.rbool (isAdminId uid)) =
      updA (userFields u t) "referrals" (RVal.rints u.referrals) := by
    apply updA_self_value
    rw [lookupA_updA_ne _ "referrals" "isAdmin" _ (by decide), ← hadm]
    simp [userFields, lookupA]
  rw [h1, h2, h3]
  simp [hidv, hbv, hadmv]

/-- C4: reading an id with no stored record synthesizes a user with zero
bonus, empty referrals, the deterministic referral code and the allow-list
admin flag, persists it, and a second read of the same id returns the same
persisted record without modifying the store. -/
theorem user_read_creates (st : Store) (uid : Nat) (t t' : Int)
    (h : st.getRec (userKey uid) = none) :
    lookupA (api_get_user st uid t).1 "bonus" = some (RVal.rint 0) ∧
    lookupA (api_get_user st uid t).1 "referrals" = some (RVal.rints []) ∧
    lookupA (api_get_user st uid t).1 "referralCode" = some (RVal.rstr (refCode uid)) ∧
    lookupA (api_get_user st uid t).1 "isAdmin" = some (RVal.rbool (isAdminId uid)) ∧
    ((api_get_user st uid t).2.getRec (userKey uid)).isSome ∧
    api_get_user (api_get_user st uid t).2 uid t' = api_get_user st uid t := by
  have hget : get_user st uid = none := by
    unfold get_user
    rw [h]
    rfl
  set uW : UserIn :=
    ⟨uid, "user_" ++ natStr uid, 0, [], refCode uid, isAdminId uid, none⟩ with huW
  have h1 : api_get_user st uid t =
      (updA (userFields uW t) "referrals" (RVal.rints []),
        st.hset (userKey uid) (userFields uW t)) := by
    unfold api_get_user
    rw [hget]
    rfl
  set u1 : Rec := updA (userFields uW t) "referrals" (RVal.rints []) with hu1
  have hget2 : (st.hset (userKey uid) (userFields uW t)).getRec (userKey uid) =
      some (userFields uW t) := by
    rw [getRec_hset_self, h]
    show some (setMany [] (userFields uW t)) = _
    rw [setMany_userFields_nil]
  have hu2 : get_user (st.hset (userKey uid) (userFields uW t)) uid = some u1 := by
    unfold get_user
    rw [hget2]
    exact decodeUser_userFields uid uW t rfl rfl
  have h2 : api_get_user (st.hset (userKey uid) (userFields uW t)) uid t' =
      (u1, st.hset (userKey uid) (userFields uW t)) := by
    unfold api_get_user
    rw [hu2]
  refine ⟨?_, ?_, ?_, ?_, ?_, ?_⟩
  · rw [h1]; simp [userFields, updA, lookupA]
  · rw [h1]; simp [userFields, updA, lookupA]
  · rw [h1]; simp [userFields, updA, lookupA]
  · rw [h1]; simp [userFields, updA, lookupA]
  · rw [h1]; rw [hget2]; rfl
  · rw [h1]
    dsimp only
    rw [h2]

/-- Witness for C4: reading the absent user 42 from the empty store gives
bonus 0, no referrals, the padded referral code and a non-admin flag, and
the second read returns the same persisted record. -/
theorem user_read_creates_witness :
    lookupA (api_get_user ⟨[], []⟩ 42 100).1 "bonus" = some (RVal.rint 0) ∧
    lookupA (api_get_user ⟨[], []⟩ 42 100).1 "referralCode" =
      some (RVal.rstr "REF000042") ∧
    lookupA (api_get_user ⟨[], []⟩ 42 100).1 "isAdmin" = some (RVal.rbool false) ∧
    api_get_user (api_get_user ⟨[], []⟩ 42 100).2 42 200 = api_get_user ⟨[], []⟩ 42 100 := by
  have h := user_read_creates ⟨[], []⟩ 42 100 200 rfl
  refine ⟨h.1, ?_, ?_, h.2.2.2.2.2⟩
  · have := h.2.2.1
    rw [show refCode 42 = "REF000042" from rfl] at this
    exact this
  · have := h.2.2.2.1
    rw [show isAdminId 42 = false from rfl] at this
    exact this

/-- C8: the isAdmin field returned by a user read always equals the
allow-list membership of the requested id, and is independent of any
stored isAdmin value: reads of two records differing only in the stored
isAdmin field give the same isAdmin. -/
theorem admin_from_allowlist :
    (∀ (st : Store) (uid : Nat) (u : Rec), get_user st uid = some u →
      lookupA u "isAdmin" = some (RVal.rbool (isAdminId uid))) ∧
    (∀ (uid : Nat) (r : Rec) (v : RVal),
      (decodeUser uid (updA r "isAdmin" v)).map (fun u => lookupA u "isAdmin") =
        (decodeUser uid r).map (fun u => lookupA u "isAdmin")) := by
  constructor
  · intro st uid u hu
    unfold get_user at hu
    obtain ⟨r, hr, hdec⟩ := Option.bind_eq_some.mp hu
    unfold decodeUser at hdec
    obtain ⟨i, hi, hdec⟩ := Option.bind_eq_some.mp hdec
    obtain ⟨b, hb, hdec⟩ := Option.bind_eq_some.mp hdec
    obtain ⟨rl, hrl, hdec⟩ := Option.bind_eq_some.mp hdec
    have hu' := Option.some_inj.mp hdec
    rw [← hu']
    exact lookupA_updA_self _ _ _
  · intro uid r v
    unfold decodeUser
    rw [lookupA_updA_ne r "isAdmin" "id" v (by decide)]
    have hb : userBonusVal (updA r "isAdmin" v) = userBonusVal r := by
      unfold userBonusVal
      rw [lookupA_updA_ne r "isAdmin" "bonus" v (by decide)]
    have hrl : userReferralsVal (updA r "isAdmin" v) = userReferralsVal r := by
      unfold userReferralsVal
      rw [lookupA_updA_ne r "isAdmin" "referrals" v (by decide)]
    rw [hb, hrl]
    cases (lookupA r "id").bind RVal.asInt with
    | none => rfl
    | some i =>
      cases userBonusVal r with
      | none => rfl
      | some b =>
        cases userReferralsVal r with
        | none => rfl
        | some rl =>
          simp [lookupA_updA_self]

def stC8 : Store := ⟨[(userKey 2, [("id", RVal.rint 2), ("isAdmin", RVal.rbool true)])], []⟩

def uC8 : Rec :=
  [("id", RVal.rint 2), ("isAdmin", RVal.rbool false), ("bonus", RVal.rint 0),
    ("referrals", RVal.rints [])]

/-- Witness for C8: a record whose stored isAdmin is true is read back
with isAdmin false for an id outside the allow-list. -/
theorem admin_from_allowlist_witness :
    get_user stC8 2 = some uC8 ∧ lookupA uC8 "isAdmin" = some (RVal.rbool false) := by
  refine ⟨by decide, ?_⟩
  have h := admin_from_allowlist.1 stC8 2 uC8 (by decide)
  rw [show isAdminId 2 = false from rfl] at h
  exact h

theorem ordersGood_decode_isSome (st : Store) (h : ordersGood st = true) :
    ∀ r ∈ recsUnder st (ORDERS_KEY ++ ":"), (decodeOrder r).isSome := by
  intro r hr
  have := List.all_eq_true.mp h r hr
  cases hd : decodeOrder r with
  | none => rw [hd] at this; simp at this
  | some o => simp

theorem decodeOrder_nil : decodeOrder [] = none := rfl

/-- After an HSET of the save_order mapping into any store whose order
records are well formed, the written order (with its structured items) is
among the listed orders. -/
theorem save_items_mem_aux (st1 : Store) (i : Int) (d : OrderIn) (t : Int)
    (hg : ordersGood st1 = true) :
    (i, d.items) ∈
      (get_all_orders (update_stats (st1.hset (orderKey i) (orderFields i d t)) t)).map
        (fun o => (o.id, o.items)) := by
  set st2 := st1.hset (orderKey i) (orderFields i d t) with hst2
  rw [get_all_orders_update_stats]
  set merged := setMany ((st1.getRec (orderKey i)).getD []) (orderFields i d t) with hmerged
  have hdec : decodeOrder merged =
      some ⟨i, d.userId, d.total, d.items, some (RVal.rstr (d.status.getD "pending"))⟩ := by
    rw [hmerged]; exact decodeOrder_orderFields _ _ _ _
  have hne : merged ≠ [] := by
    intro he
    rw [he, decodeOrder_nil] at hdec
    exact Option.noConfusion hdec
  have hmem : merged ∈ recsUnder st2 (ORDERS_KEY ++ ":") := by
    rw [hst2, hmerged]
    apply merged_mem_recsUnder_hset
    · rw [orderKey_pfx]
      exact hasPfx_append _ _
    · rw [← hmerged]; exact hne
  have hg2 : ordersGood st2 = true := by
    rw [hst2]
    apply ordersGood_hset_order st1 _ _ _ hg
    rw [← hmerged, hdec]
    simp
  obtain ⟨os, hos⟩ := decodeAll_isSome decodeOrder _ (ordersGood_decode_isSome st2 hg2)
  obtain ⟨o, ho, hdo⟩ := decodeAll_exists_mem decodeOrder _ os hos merged hmem
  rw [hdec] at hdo
  have ho' := Option.some_inj.mp hdo
  unfold get_all_orders
  rw [hos]
  dsimp only
  apply List.mem_map.mpr
  refine ⟨o, (List.mem_insertionSort _).mpr ho, ?_⟩
  rw [← ho']

/-- C9: for every order save, the object handed back carries the
structured items (not the serialized text); serialization to the stored
text followed by deserialization is a round trip; and on any well formed
store, a subsequent list() contains the saved order with items
structurally equal to those passed in. -/
theorem order_items_roundtrip (st : Store) (d : OrderIn) (t : Int) :
    (save_order st d t).1.items = d.items ∧
    (∀ l : List Item, loadsItems (dumpsItems l) = some l) ∧
    (ordersGood st = true →
      ((save_order st d t).1.id, d.items) ∈
        (get_all_orders (save_order st d t).2).map (fun o => (o.id, o.items))) := by
  refine ⟨?_, loadsItems_dumpsItems, ?_⟩
  · unfold save_order
    cases d.id <;> rfl
  · intro hg
    show ((save_order st d t).1.id, d.items) ∈ _
    unfold save_order
    cases hid : d.id with
    | some i =>
      dsimp only
      exact save_items_mem_aux st i d t hg
    | none =>
      dsimp only
      apply save_items_mem_aux
      have : ordersGood (get_next_id st ORDERS_KEY).2 = ordersGood st := rfl
      rw [this]
      exact hg

/-- Witness for C9: saving an order with a two-item list into the empty
store returns the structured items and lists the order with exactly those
items. -/
theorem order_items_roundtrip_witness :
    (save_order ⟨[], []⟩ ⟨none, 7, [⟨1, 2, 450⟩, ⟨3, 1, 300⟩], 1200, none, none⟩ 30).1.items =
      [⟨1, 2, 450⟩, ⟨3, 1, 300⟩] ∧
    ((1 : Int), [(⟨1, 2, 450⟩ : Item), ⟨3, 1, 300⟩]) ∈
      (get_all_orders
        (save_order ⟨[], []⟩ ⟨none, 7, [⟨1, 2, 450⟩, ⟨3, 1, 300⟩], 1200, none, none⟩ 30).2).map
        (fun o => (o.id, o.items)) :=
  ⟨(order_items_roundtrip ⟨[], []⟩ ⟨none, 7, [⟨1, 2, 450⟩, ⟨3, 1, 300⟩], 1200, none, none⟩ 30).1,
   (order_items_roundtrip ⟨[], []⟩ ⟨none, 7, [⟨1, 2, 450⟩, ⟨3, 1, 300⟩], 1200, none, none⟩ 30).2.2
     (by decide)⟩

/-! ### Claim C2: sequences of product creations -/

/-- A sequence of POST product calls, each at its own time, collecting the
ids handed back. -/
def runCreates : Store → List (ProdIn × Int) → List Int × Store
  | st, [] => ([], st)
  | st, (d, t) :: rest =>
    let p := save_product st d t
    let q := runCreates p.2 rest
    (p.1 :: q.1, q.2)

/-- The record written for one created product. -/
def prodRec (i : Int) (d : ProdIn) (t : Int) : Rec := setMany [] (prodFields i d t)

def prodCounterKey : String := PRODUCTS_KEY ++ ":counter"

/-- The counter table after k allocations (absent before the first). -/
def prodCounter (k : Nat) : List (String × Nat) :=
  if k = 0 then [] else [(prodCounterKey, k)]

/-- The product records after creations numbered from k+1 onward. -/
def prodRecs : Nat → List (ProdIn × Int) → List (String × Rec)
  | _, [] => []
  | k, (d, t) :: rest =>
    (productKey ((k + 1 : Nat) : Int), prodRec ((k + 1 : Nat) : Int) d t) ::
      prodRecs (k + 1) rest

/-- The decoded products the listing is expected to return, in creation
order with ids from k+1 onward. -/
def prodOuts : Nat → List (ProdIn × Int) → List Product
  | _, [] => []
  | k, (d, t) :: rest =>
    ⟨((k + 1 : Nat) : Int), d.price, d.stock, some (RVal.rstr d.name)⟩ :: prodOuts (k + 1) rest

theorem productKey_pfx (i : Int) : productKey i = (PRODUCTS_KEY ++ ":") ++ intStr i := by
  unfold productKey
  rw [String.append_assoc]

theorem productKey_inj {a b : Int} (h : productKey a = productKey b) : a = b := by
  rw [productKey_pfx, productKey_pfx] at h
  have hd := congrArg String.data h
  rw [String.data_append, String.data_append] at hd
  have hs : (intStr a).data = (intStr b).data := by simpa using hd
  apply intStr_injective
  cases ha : intStr a
  cases hb : intStr b
  rw [ha, hb] at hs
  exact congrArg String.mk hs

theorem lookupA_none_of_not_mem_fst {α : Type} (l : List (String × α)) (key : String)
    (h : key ∉ l.map Prod.fst) : lookupA l key = none := by
  induction l with
  | nil => rfl
  | cons p l ih =>
    obtain ⟨k, v⟩ := p
    simp only [List.map_cons, List.mem_cons, not_or] at h
    have hne : ¬ (k = key) := fun he => h.1 he.symm
    simp only [lookupA, if_neg hne]
    exact ih h.2

theorem mem_fst_prodRecs :
    ∀ (ds : List (ProdIn × Int)) (k : Nat) (key : String),
      key ∈ (prodRecs k ds).map Prod.fst →
      ∃ m : Nat, k < m ∧ m ≤ k + ds.length ∧ key = productKey (m : Int) := by
  intro ds
  induction ds with
  | nil => intro k key h; simp [prodRecs] at h
  | cons p ds ih =>
    intro k key h
    obtain ⟨d, t⟩ := p
    simp only [prodRecs, List.map_cons, List.mem_cons] at h
    rcases h with h | h
    · exact ⟨k + 1, by omega, by simp only [List.length_cons]; omega, h⟩
    · obtain ⟨m, hm1, hm2, hm3⟩ := ih (k + 1) key h
      exact ⟨m, by omega, by simp only [List.length_cons]; omega, hm3⟩

theorem nodup_fst_prodRecs : ∀ (ds : List (ProdIn × Int)) (k : Nat),
    ((prodRecs k ds).map Prod.fst).Nodup := by
  intro ds
  induction ds with
  | nil => intro k; simp [prodRecs]
  | cons p ds ih =>
    intro k
    obtain ⟨d, t⟩ := p
    simp only [prodRecs, List.map_cons, List.nodup_cons]
    refine ⟨?_, ih (k + 1)⟩
    intro hmem
    obtain ⟨m, hm1, _, hm3⟩ := mem_fst_prodRecs ds (k + 1) _ hmem
    have : (m : Int) = ((k + 1 : Nat) : Int) := productKey_inj hm3.symm
    omega

theorem prodRec_ne_nil (i : Int) (d : ProdIn) (t : Int) : prodRec i d t ≠ [] :=
  setMany_ne_nil [] "id" (RVal.rint i) _

theorem mem_snd_prodRecs :
    ∀ (ds : List (ProdIn × Int)) (k : Nat) (r : Rec),
      r ∈ (prodRecs k ds).map Prod.snd →
      ∃ (m : Int) (d : ProdIn) (t : Int), r = prodRec m d t := by
  intro ds
  induction ds with
  | nil => intro k r h; simp [prodRecs] at h
  | cons p ds ih =>
    intro k r h
    obtain ⟨d, t⟩ := p
    simp only [prodRecs, List.map_cons, List.mem_cons] at h
    rcases h with h | h
    · exact ⟨_, d, t, h⟩
    · exact ih (k + 1) r h

theorem decodeAll_prodRecs : ∀ (ds : List (ProdIn × Int)) (k : Nat),
    decodeAll decodeProduct ((prodRecs k ds).map Prod.snd) = some (prodOuts k ds) := by
  intro ds
  induction ds with
  | nil => intro k; rfl
  | cons p ds ih =>
    intro k
    obtain ⟨d, t⟩ := p
    simp only [prodRecs, prodOuts, List.map_cons, decodeAll]
    rw [show prodRec ((k + 1 : Nat) : Int) d t =
      setMany [] (prodFields ((k + 1 : Nat) : Int) d t) from rfl]
    rw [decodeProduct_prodFields, ih (k + 1)]

theorem prodOuts_id_lt : ∀ (ds : List (ProdIn × Int)) (k : Nat),
    ∀ p ∈ prodOuts k ds, (k : Int) < p.id := by
  intro ds
  induction ds with
  | nil => intro k p h; simp [prodOuts] at h
  | cons q ds ih =>
    intro k p h
    obtain ⟨d, t⟩ := q
    simp only [prodOuts, List.mem_cons] at h
    rcases h with h | h
    · rw [h]; simp
    · have := ih (k + 1) p h
      have hc : ((k : Nat) : Int) < ((k + 1 : Nat) : Int) := by exact_mod_cast Nat.lt_succ_self k
      exact lt_trans hc this

theorem sorted_prodOuts : ∀ (ds : List (ProdIn × Int)) (k : Nat),
    List.Sorted (fun a b : Product => a.id < b.id) (prodOuts k ds) := by
  intro ds
  induction ds with
  | nil => intro k; simp [prodOuts]
  | cons q ds ih =>
    intro k
    obtain ⟨d, t⟩ := q
    simp only [prodOuts]
    rw [List.sorted_cons]
    exact ⟨fun b hb => prodOuts_id_lt ds (k + 1) b hb, ih (k + 1)⟩

theorem prodOuts_length : ∀ (ds : List (ProdIn × Int)) (k : Nat),
    (prodOuts k ds).length = ds.length := by
  intro ds
  induction ds with
  | nil => intro k; rfl
  | cons q ds ih =>
    intro k
    obtain ⟨d, t⟩ := q
    simp [prodOuts, ih (k + 1)]

/-- The whole creation run, characterized: each step allocates the next
integer, writes a fresh record keyed by it, and appends it to the store in
creation order. -/
theorem runCreates_invariant :
    ∀ (rest : List (ProdIn × Int)) (k : Nat) (recs : List (String × Rec)),
      (∀ key ∈ recs.map Prod.fst,
        ∃ m : Nat, 0 < m ∧ m ≤ k ∧ key = productKey (m : Int)) →
      (∀ p ∈ rest, (p : ProdIn × Int).1.id = none) →
      runCreates ⟨recs, prodCounter k⟩ rest =
        ((List.range' (k + 1) rest.length).map Int.ofNat,
         ⟨recs ++ prodRecs k rest, prodCounter (k + rest.length)⟩) := by
  intro rest
  induction rest with
  | nil =>
    intro k recs _ _
    simp [runCreates, prodRecs, List.range']
  | cons p rest ih =>
    intro k recs hkeys hids
    obtain ⟨d, t⟩ := p
    have hdid : d.id = none := hids (d, t) (List.mem_cons_self _ _)
    have hincr : Store.incr ⟨recs, prodCounter k⟩ prodCounterKey =
        (k + 1, ⟨recs, prodCounter (k + 1)⟩) := by
      unfold Store.incr prodCounter
      cases k with
      | zero => simp [lookupA, updA]
      | succ k' => simp [lookupA, updA]
    have hfresh : lookupA recs (productKey ((k + 1 : Nat) : Int)) = none := by
      apply lookupA_none_of_not_mem_fst
      intro hmem
      obtain ⟨m, hm0, hmk, hkey⟩ := hkeys _ hmem
      have : ((k + 1 : Nat) : Int) = (m : Int) := productKey_inj hkey
      omega
    have hsave : save_product ⟨recs, prodCounter k⟩ d t =
        (((k + 1 : Nat) : Int),
         ⟨recs ++ [(productKey ((k + 1 : Nat) : Int), prodRec ((k + 1 : Nat) : Int) d t)],
          prodCounter (k + 1)⟩) := by
      unfold save_product get_next_id
      rw [hdid]
      dsimp only
      rw [show PRODUCTS_KEY ++ ":counter" = prodCounterKey from rfl]
      rw [hincr]
      dsimp only
      unfold Store.hset
      dsimp only
      rw [hfresh]
      rw [updA_of_not_mem _ _ _ hfresh]
      rfl
    show runCreates ⟨recs, prodCounter k⟩ ((d, t) :: rest) = _
    unfold runCreates
    rw [hsave]
    dsimp only
    rw [ih (k + 1) _ ?keys ?ids]
    case keys =>
      intro key hkey
      rw [List.map_append] at hkey
      rcases List.mem_append.mp hkey with hk | hk
      · obtain ⟨m, hm0, hmk, hm⟩ := hkeys key hk
        exact ⟨m, hm0, by omega, hm⟩
      · simp only [List.map_cons, List.map_nil, List.mem_singleton] at hk
        exact ⟨k + 1, by omega, by omega, hk⟩
    case ids =>
      intro q hq
      exact hids q (List.mem_cons_of_mem _ hq)
    have hlen : ((d, t) :: rest).length = rest.length + 1 := rfl
    have hrange : List.range' (k + 1) (rest.length + 1) =
        (k + 1) :: List.range' (k + 2) rest.length := List.range'_succ (k + 1) rest.length 1
    rw [hlen, hrange]
    simp only [List.map_cons]
    have hn : k + 1 + rest.length = k + (rest.length + 1) := by omega
    rw [hn]
    have hrecs2 : (recs ++ [(productKey ((k + 1 : Nat) : Int),
        prodRec ((k + 1 : Nat) : Int) d t)]) ++ prodRecs (k + 1) rest =
        recs ++ prodRecs k ((d, t) :: rest) := by
      rw [List.append_assoc]
      rfl
    rw [hrecs2]
    rfl

theorem get_all_products_prodRecs (ds : List (ProdIn × Int)) (c : List (String × Nat)) :
    get_all_products ⟨prodRecs 0 ds, c⟩ = prodOuts 0 ds := by
  unfold get_all_products
  have hrecs : recsUnder ⟨prodRecs 0 ds, c⟩ (PRODUCTS_KEY ++ ":") =
      (prodRecs 0 ds).map Prod.snd := by
    unfold recsUnder Store.keysWithPfx
    dsimp only
    have hfilter : ((prodRecs 0 ds).map Prod.fst).filter
        (fun k => (PRODUCTS_KEY ++ ":").data.isPrefixOf k.data) =
        (prodRecs 0 ds).map Prod.fst := by
      apply List.filter_eq_self.mpr
      intro key hkey
      obtain ⟨m, _, _, hm⟩ := mem_fst_prodRecs ds 0 key hkey
      rw [hm, productKey_pfx]
      exact hasPfx_append _ _
    rw [hfilter]
    show (((prodRecs 0 ds).map Prod.fst).filterMap (lookupA (prodRecs 0 ds))).filter _ = _
    rw [filterMap_lookupA_self _ (nodup_fst_prodRecs ds 0)]
    apply List.filter_eq_self.mpr
    intro r hr
    obtain ⟨m, d, t, hm⟩ := mem_snd_prodRecs ds 0 r hr
    rw [hm]
    simpa using prodRec_ne_nil m d t
  rw [hrecs, decodeAll_prodRecs]
  dsimp only
  apply List.Sorted.insertionSort_eq
  exact List.Pairwise.imp (fun hab => le_of_lt hab) (sorted_prodOuts ds 0)

/-- C2: for every sequence of product creations whose payloads lack an id,
the allocator hands back the ids 1..N in order with no duplicates, and a
subsequent list() returns all N products (ids, prices and stocks as
integers, in creation order) sorted strictly ascending by id. -/
theorem product_creates_spec (inputs : List (ProdIn × Int))
    (h : ∀ p ∈ inputs, (p : ProdIn × Int).1.id = none) :
    (runCreates ⟨[], []⟩ inputs).1 =
      (List.range' 1 inputs.length).map Int.ofNat ∧
    (runCreates ⟨[], []⟩ inputs).1.Nodup ∧
    get_all_products (runCreates ⟨[], []⟩ inputs).2 = prodOuts 0 inputs ∧
    List.Sorted (fun a b : Product => a.id < b.id)
      (get_all_products (runCreates ⟨[], []⟩ inputs).2) ∧
    (get_all_products (runCreates ⟨[], []⟩ inputs).2).length = inputs.length := by
  have hrun := runCreates_invariant inputs 0 [] (by intro key hk; simp at hk) h
  have hst : (⟨[], []⟩ : Store) = ⟨[], prodCounter 0⟩ := rfl
  rw [hst, hrun]
  dsimp only
  have hlist : get_all_products ⟨[] ++ prodRecs 0 inputs, prodCounter (0 + inputs.length)⟩ =
      prodOuts 0 inputs := by
    rw [List.nil_append]
    exact get_all_products_prodRecs inputs _
  refine ⟨rfl, ?_, hlist, ?_, ?_⟩
  · apply List.Nodup.map
    · intro a b hab
      exact Int.ofNat.inj hab
    · exact List.nodup_range' _ _
  · rw [hlist]
    exact sorted_prodOuts inputs 0
  · rw [hlist]
    exact prodOuts_length inputs 0

def inputsW : List (ProdIn × Int) :=
  [(⟨none, "A", "liquids", 450, 10, none, none, none⟩, 10),
   (⟨none, "B", "pods", 280, 12, none, none, none⟩, 11),
   (⟨none, "C", "devices", 2800, 5, none, none, none⟩, 12)]

/-- Witness for C2: three creations get ids 1, 2, 3 and the listing
returns the three products in ascending id order with integer fields. -/
theorem product_creates_spec_witness :
    (runCreates ⟨[], []⟩ inputsW).1 = [1, 2, 3] ∧
    (get_all_products (runCreates ⟨[], []⟩ inputsW).2).map
      (fun p => (p.id, p.price, p.stock)) =
      [(1, 450, 10), (2, 280, 12), (3, 2800, 5)] :=
  ⟨((product_creates_spec inputsW (by decide)).1).trans (by decide), by decide⟩

end VepeShop
